import Mathlib

/-!
# Verification of the VOICEVOX engine HTTP layer and its kana notation subsystem

This development embeds, in Lean 4, the data model and operations of the
`voicevox_engine` repository that the specification talks about:

* the kana notation parser (`parse_kana`) and serializer (`create_kana`)
  over the `AccentPhrase` / `Mora` data model, together with the structured
  parse-error contract;
* the HTTP handlers of `run.py` (`get_engine`, `accent_phrases`,
  `audio_query`, `audio_query_from_preset`, `connect_waves`) and the
  LRU-cached morphing-parameter wrapper installed by `generate_app`.

The parser and serializer live in `voicevox_engine/kana_parser.py`, which is
not part of the provided sources (only `run.py` is); they are therefore
modelled from the specification, as indicated by the doc comments below.
The HTTP handlers are embedded directly from `run.py`.
-/

namespace Voicevox

/-! ## Symbols of the kana notation grammar

Modelled from the spec: the classification characters of the notation
tokenizer (spec section 4.1).  The accent mark is the ASCII apostrophe,
written here via its code point. -/

def ACCENT_SYMBOL : Char := Char.ofNat 39

def UNVOICE_SYMBOL : Char := '_'

def NOPAUSE_DELIMITER : Char := '/'

def PAUSE_DELIMITER : Char := '、'

def WIDE_INTERROGATION_MARK : Char := '？'

def LONG_VOWEL_MARK : Char := 'ー'

/-! ## Phonemes and devoicing

Modelled from the spec: the phoneme inventory is external data whose exact
contents the spec leaves open (sections 2.1 and 9); devoicing is recorded by
the engine on the vowel itself ("the engine marks certain vowels unvoiced"),
which we render, as is conventional for this engine, by the upper-case form
of the five devoiceable vowels. -/

/-- The voiced vowels that possess an unvoiced (devoiced) form, paired with
that form. -/
def devoicePairs : List (String × String) :=
  [("a", "A"), ("i", "I"), ("u", "U"), ("e", "E"), ("o", "O")]

/-- The vowels that possess an unvoiced (devoiced) form, mapped to it. -/
def devoiceVowel (v : String) : Option String :=
  (devoicePairs.find? (fun p => p.1 == v)).map (·.2)

/-- Whether a vowel phoneme is an unvoiced (devoiced) form. -/
def isUnvoicedVowel (v : String) : Bool :=
  decide (v = "A") || decide (v = "I") || decide (v = "U")
    || decide (v = "E") || decide (v = "O")

/-- The voiced form of a vowel phoneme (identity on already-voiced vowels). -/
def voicedOf (v : String) : String :=
  (((devoicePairs.map (fun p => (p.2, p.1))).find? (fun p => p.1 == v)).map (·.2)).getD v

/-- Modelled from the spec: the katakana-to-phoneme lookup table (spec
section 2.1) is external data; we instantiate the single-character fragment
used by the spec's examples.  Each entry gives the optional consonant
phoneme and the vowel phoneme. -/
def kanaEntries : List (Char × (Option String × String)) :=
  [('カ', (some "k", "a")), ('キ', (some "k", "i")), ('ク', (some "k", "u")),
   ('コ', (some "k", "o")), ('ス', (some "s", "u")), ('シ', (some "sh", "i")),
   ('チ', (some "ch", "i")), ('ニ', (some "n", "i")), ('ハ', (some "h", "a")),
   ('ワ', (some "w", "a")), ('ン', (none, "N"))]

/-- Lookup in the phoneme table.  On this single-character fragment the
longest-match tokenization of the spec degenerates to single-character
lookup, so a kana token occupies exactly one character position. -/
def kanaTable (c : Char) : Option (Option String × String) :=
  (kanaEntries.find? (fun p => p.1 == c)).map (·.2)

/-- The silence phoneme used as the vowel of a synthesized pause mora. -/
def SILENCE_VOWEL : String := "pau"

/-! ## Data model (spec section 3) -/

/-- One phonetic unit.  Numeric duration/pitch fields are absent at parse
time and populated by downstream stages; they are modelled as optional
rationals. -/
structure Mora where
  text : String
  consonant : Option String
  consonant_length : Option Rat
  vowel : String
  vowel_length : Option Rat
  pitch : Option Rat
deriving DecidableEq

/-- An ordered sequence of moras sharing one pitch-accent contour. -/
structure AccentPhrase where
  moras : List Mora
  accent : Nat
  pause_mora : Option Mora
  is_interrogative : Bool
deriving DecidableEq

/-- The synthesized silent mora appended after a pause delimiter: empty
text, the silence vowel phoneme, no consonant (spec section 4.3). -/
def silentMora : Mora :=
  { text := ""
    consonant := none
    consonant_length := none
    vowel := SILENCE_VOWEL
    vowel_length := none
    pitch := none }

/-! ## Structured parse errors (spec sections 3, 6, 7) -/

/-- The closed enumeration of parse failure kinds. -/
inductive ParseKanaErrorCode where
  | UnknownCharacter
  | MissingAccentMark
  | MultipleAccentMarks
  | EmptyPhrase
  | DevoicingOnInvalidMora
  | InterrogativeMarkMisplaced
deriving DecidableEq

/-- Human-readable message for each failure kind. -/
def errorMessage : ParseKanaErrorCode → String
  | .UnknownCharacter => "unknown character"
  | .MissingAccentMark => "missing accent mark"
  | .MultipleAccentMarks => "multiple accent marks"
  | .EmptyPhrase => "empty phrase"
  | .DevoicingOnInvalidMora => "devoicing on invalid mora"
  | .InterrogativeMarkMisplaced => "interrogative mark misplaced"

/-- A structured parse failure: kind and 0-based character offset into the
original input (spec section 4.5). -/
structure ParseKanaError where
  errorName : ParseKanaErrorCode
  position : Nat
deriving DecidableEq

/-- Decidable equality for `Except` results, so that concrete parses can be
checked by evaluation. -/
instance instDecEqExcept {ε α : Type} [DecidableEq ε] [DecidableEq α] :
    DecidableEq (Except ε α)
  | .error e₁, .error e₂ =>
    if h : e₁ = e₂ then .isTrue (by rw [h])
    else .isFalse (by intro hh; cases hh; exact h rfl)
  | .error _, .ok _ => .isFalse (by intro hh; cases hh)
  | .ok _, .error _ => .isFalse (by intro hh; cases hh)
  | .ok a₁, .ok a₂ =>
    if h : a₁ = a₂ then .isTrue (by rw [h])
    else .isFalse (by intro hh; cases hh; exact h rfl)

/-! ## The parser (spec sections 4.1 - 4.3)

Modelled from the spec: `kana_parser.parse_kana` is not among the provided
sources.  The parser below follows the tokenizer classification, the mora
builder, and the accent-phrase assembler of the spec in a single
left-to-right pass.  Cases the spec leaves without a named error kind are
folded into the closed enumeration as documented on `parseLoop`. -/

/-- Close the current phrase at a delimiter or at end of input.  A phrase
with zero moras is an `EmptyPhrase` error at the triggering unit; a phrase
without an accent mark is a `MissingAccentMark` error at the phrase start
(spec section 4.3). -/
def closePhrase (ms : List Mora) (acc : Option Nat) (interro pause : Bool)
    (pstart pos : Nat) : Except ParseKanaError AccentPhrase :=
  match ms with
  | [] => .error ⟨.EmptyPhrase, pos⟩
  | _ :: _ =>
    match acc with
    | none => .error ⟨.MissingAccentMark, pstart⟩
    | some a => .ok ⟨ms, a, if pause then some silentMora else none, interro⟩

/-- The single left-to-right pass of the parser.  Arguments: remaining
input, current character offset, completed phrases, moras of the current
phrase, accent position of the current phrase (if already marked), and the
offset at which the current phrase started.

Decisions the spec leaves open, resolved here: an accent mark with no
preceding mora in the phrase is reported as `MissingAccentMark` at the
phrase start (the spec's enumeration has no separate kind for it); a
long-vowel mark at the start of a phrase ("invalid as the first character
of input or of a phrase") is reported as `UnknownCharacter` at its offset;
a devoicing marker whose follower is not a devoiceable kana token is
`DevoicingOnInvalidMora` at the follower's offset. -/
def parseLoop : List Char → Nat → List AccentPhrase → List Mora → Option Nat → Nat →
    Except ParseKanaError (List AccentPhrase)
  | [], pos, done, ms, acc, pstart =>
    match closePhrase ms acc false false pstart pos with
    | .error e => .error e
    | .ok ph => .ok (done ++ [ph])
  | c :: rest, pos, done, ms, acc, pstart =>
    if c = ACCENT_SYMBOL then
      if ms.isEmpty then .error ⟨.MissingAccentMark, pstart⟩
      else
        match acc with
        | some _ => .error ⟨.MultipleAccentMarks, pos⟩
        | none => parseLoop rest (pos + 1) done ms (some ms.length) pstart
    else if c = UNVOICE_SYMBOL then
      match rest with
      | [] => .error ⟨.DevoicingOnInvalidMora, pos + 1⟩
      | c2 :: rest2 =>
        match kanaTable c2 with
        | none => .error ⟨.DevoicingOnInvalidMora, pos + 1⟩
        | some (cons, vw) =>
          match devoiceVowel vw with
          | none => .error ⟨.DevoicingOnInvalidMora, pos + 1⟩
          | some dv =>
            parseLoop rest2 (pos + 2) done
              (ms ++ [⟨String.mk [c2], cons, none, dv, none, none⟩]) acc pstart
    else if c = NOPAUSE_DELIMITER then
      match closePhrase ms acc false false pstart pos with
      | .error e => .error e
      | .ok ph => parseLoop rest (pos + 1) (done ++ [ph]) [] none (pos + 1)
    else if c = PAUSE_DELIMITER then
      match closePhrase ms acc false true pstart pos with
      | .error e => .error e
      | .ok ph => parseLoop rest (pos + 1) (done ++ [ph]) [] none (pos + 1)
    else if c = WIDE_INTERROGATION_MARK then
      match rest with
      | [] =>
        match closePhrase ms acc true false pstart pos with
        | .error e => .error e
        | .ok ph => .ok (done ++ [ph])
      | d :: rest2 =>
        if d = NOPAUSE_DELIMITER then
          match closePhrase ms acc true false pstart pos with
          | .error e => .error e
          | .ok ph => parseLoop rest2 (pos + 2) (done ++ [ph]) [] none (pos + 2)
        else if d = PAUSE_DELIMITER then
          match closePhrase ms acc true true pstart pos with
          | .error e => .error e
          | .ok ph => parseLoop rest2 (pos + 2) (done ++ [ph]) [] none (pos + 2)
        else .error ⟨.InterrogativeMarkMisplaced, pos⟩
    else if c = LONG_VOWEL_MARK then
      match ms.getLast? with
      | none => .error ⟨.UnknownCharacter, pos⟩
      | some prev =>
        parseLoop rest (pos + 1) done
          (ms ++ [⟨String.mk [LONG_VOWEL_MARK], none, none, voicedOf prev.vowel, none, none⟩])
          acc pstart
    else
      match kanaTable c with
      | none => .error ⟨.UnknownCharacter, pos⟩
      | some (cons, vw) =>
        parseLoop rest (pos + 1) done
          (ms ++ [⟨String.mk [c], cons, none, vw, none, none⟩]) acc pstart

/-- Modelled from the spec: `kana_parser.parse_kana`.  Parses a notation
string into accent phrases or fails with a structured error. -/
def parse_kana (text : String) : Except ParseKanaError (List AccentPhrase) :=
  parseLoop text.data 0 [] [] none 0

/-! ## The serializer (spec section 4.4)

Modelled from the spec: `kana_parser.create_kana` is not among the provided
sources. -/

/-- The characters emitted for one mora: the devoicing marker when the
mora's vowel is marked unvoiced, then the mora's katakana text. -/
def createMoraChars (m : Mora) : List Char :=
  (if isUnvoicedVowel m.vowel then [UNVOICE_SYMBOL] else []) ++ m.text.data

/-- Emit the moras of a phrase, inserting the accent mark immediately after
the mora at the (1-indexed) accent position. -/
def emitMoras : List Mora → Nat → List Char
  | [], _ => []
  | m :: ms, a =>
    createMoraChars m ++ (if a = 1 then [ACCENT_SYMBOL] else []) ++ emitMoras ms (a - 1)

/-- The characters emitted for one phrase: its moras with the accent mark,
then the interrogative marker if the phrase is interrogative. -/
def createPhraseChars (ph : AccentPhrase) : List Char :=
  emitMoras ph.moras ph.accent
    ++ (if ph.is_interrogative then [WIDE_INTERROGATION_MARK] else [])

/-- The characters emitted for a phrase list: phrases joined with the pause
delimiter when `pause_mora` is present, the plain delimiter otherwise, with
no trailing delimiter. -/
def createChars : List AccentPhrase → List Char
  | [] => []
  | [ph] => createPhraseChars ph
  | ph :: rest =>
    createPhraseChars ph
      ++ [if ph.pause_mora.isSome then PAUSE_DELIMITER else NOPAUSE_DELIMITER]
      ++ createChars rest

/-- Modelled from the spec: `kana_parser.create_kana`, the serializer from
accent phrases to canonical notation text. -/
def create_kana (phrases : List AccentPhrase) : String :=
  String.mk (createChars phrases)

/-! ## Well-formedness of phrase lists

These predicates characterise the phrase lists the serializer's grammar can
express: they are what a successful parse produces, and (in the weaker
`grammarOK` form) the hypothesis under which the reverse round trip can
hold. -/

/-- The vowel of the last mora of `ms`, falling back to `p` when `ms` is
empty: the "previous vowel" seen after processing `ms` in a phrase that
started with previous vowel `p`. -/
def chainPrev (p : Option String) (ms : List Mora) : Option String :=
  match ms.getLast? with
  | some x => some x.vowel
  | none => p

/-- A mora is consistent with the grammar given the previous vowel in its
phrase: its text is a single unit that is either the long-vowel mark
(copying the voiced form of the previous vowel, no consonant) or a table
token whose consonant matches and whose vowel is the table vowel or its
devoiced form. -/
def moraCharWF (prev : Option String) (m : Mora) : List Char → Bool
  | [c] =>
    if c = LONG_VOWEL_MARK then
      match prev with
      | some lv => decide (m.consonant = none) && decide (m.vowel = voicedOf lv)
      | none => false
    else
      match kanaTable c with
      | some (cons, vw) =>
        decide (m.consonant = cons)
          && (decide (m.vowel = vw) || decide (devoiceVowel vw = some m.vowel))
      | none => false
  | _ => false

def moraWF (prev : Option String) (m : Mora) : Bool :=
  moraCharWF prev m m.text.data

/-- Chained well-formedness of a mora sequence. -/
def morasWF : Option String → List Mora → Bool
  | _, [] => true
  | prev, m :: ms => moraWF prev m && morasWF (some m.vowel) ms

/-- All numeric fields of a mora are absent, as at parse time. -/
def moraNumNone (m : Mora) : Bool :=
  decide (m.consonant_length = none) && decide (m.vowel_length = none)
    && decide (m.pitch = none)

/-- Grammar-level well-formedness of a phrase: non-empty moras, valid
1-indexed accent, chained mora well-formedness. -/
def phraseGramWF (ph : AccentPhrase) : Bool :=
  !ph.moras.isEmpty && decide (1 ≤ ph.accent)
    && decide (ph.accent ≤ ph.moras.length) && morasWF none ph.moras

/-- Well-formedness of a phrase as produced by the parser: grammar-level
well-formedness, numeric fields absent, and a canonical pause mora if any. -/
def phraseParsedWF (ph : AccentPhrase) : Bool :=
  phraseGramWF ph && ph.moras.all moraNumNone
    && (decide (ph.pause_mora = none) || decide (ph.pause_mora = some silentMora))

/-- A non-empty phrase list whose phrases are grammar-well-formed and whose
last phrase carries no pause mora. -/
def grammarOK (ps : List AccentPhrase) : Bool :=
  !ps.isEmpty && ps.all phraseGramWF
    && decide (ps.getLast?.map AccentPhrase.pause_mora = some none)

/-- A non-empty phrase list exactly as produced by the parser. -/
def parsedOK (ps : List AccentPhrase) : Bool :=
  !ps.isEmpty && ps.all phraseParsedWF
    && decide (ps.getLast?.map AccentPhrase.pause_mora = some none)

/-! ## Facts about the symbol classification and the table -/

theorem kanaTable_mem {c : Char} {e : Option String × String}
    (h : kanaTable c = some e) : (c, e) ∈ kanaEntries := by
  unfold kanaTable at h
  rw [Option.map_eq_some'] at h
  obtain ⟨p, hfind, hp2⟩ := h
  have hmem := List.mem_of_find?_eq_some hfind
  have hpred := List.find?_some hfind
  rw [beq_iff_eq] at hpred
  obtain ⟨p1, p2⟩ := p
  simp only at hpred hp2
  subst hpred
  subst hp2
  exact hmem

theorem kanaTable_not_special {c : Char} {e : Option String × String}
    (h : kanaTable c = some e) :
    ¬c = ACCENT_SYMBOL ∧ ¬c = UNVOICE_SYMBOL ∧ ¬c = NOPAUSE_DELIMITER ∧
      ¬c = PAUSE_DELIMITER ∧ ¬c = WIDE_INTERROGATION_MARK ∧ ¬c = LONG_VOWEL_MARK := by
  have hmem := kanaTable_mem h
  have hall : ∀ p ∈ kanaEntries,
      ¬(p : Char × (Option String × String)).1 = ACCENT_SYMBOL ∧
        ¬p.1 = UNVOICE_SYMBOL ∧ ¬p.1 = NOPAUSE_DELIMITER ∧
        ¬p.1 = PAUSE_DELIMITER ∧ ¬p.1 = WIDE_INTERROGATION_MARK ∧
        ¬p.1 = LONG_VOWEL_MARK := by decide
  exact hall (c, e) hmem

theorem kanaTable_vowel_voiced {c : Char} {cons : Option String} {vw : String}
    (h : kanaTable c = some (cons, vw)) : isUnvoicedVowel vw = false := by
  have hmem := kanaTable_mem h
  have hall : ∀ p ∈ kanaEntries,
      isUnvoicedVowel (p : Char × (Option String × String)).2.2 = false := by decide
  exact hall (c, (cons, vw)) hmem

theorem devoiceVowel_unvoiced {v dv : String}
    (h : devoiceVowel v = some dv) : isUnvoicedVowel dv = true := by
  unfold devoiceVowel at h
  rw [Option.map_eq_some'] at h
  obtain ⟨p, hfind, hp2⟩ := h
  have hmem := List.mem_of_find?_eq_some hfind
  have hall : ∀ p ∈ devoicePairs, isUnvoicedVowel (p : String × String).2 = true := by
    decide
  rw [← hp2]
  exact hall p hmem

theorem voicedOf_voiced (v : String) : isUnvoicedVowel (voicedOf v) = false := by
  unfold voicedOf
  cases hf : (devoicePairs.map (fun p => (p.2, p.1))).find? (fun p => p.1 == v) with
  | some p =>
    have hmem := List.mem_of_find?_eq_some hf
    have hall : ∀ q ∈ devoicePairs.map (fun p => (p.2, p.1)),
        isUnvoicedVowel (q : String × String).2 = false := by decide
    simpa using hall p hmem
  | none =>
    rw [List.find?_eq_none] at hf
    simp only [Option.map_none', Option.getD_none]
    have hA : ¬v = "A" := fun hv => by
      have := hf ("A", "a") (by decide); rw [hv] at this; exact this (by decide)
    have hI : ¬v = "I" := fun hv => by
      have := hf ("I", "i") (by decide); rw [hv] at this; exact this (by decide)
    have hU : ¬v = "U" := fun hv => by
      have := hf ("U", "u") (by decide); rw [hv] at this; exact this (by decide)
    have hE : ¬v = "E" := fun hv => by
      have := hf ("E", "e") (by decide); rw [hv] at this; exact this (by decide)
    have hO : ¬v = "O" := fun hv => by
      have := hf ("O", "o") (by decide); rw [hv] at this; exact this (by decide)
    simp [isUnvoicedVowel, hA, hI, hU, hE, hO]

/-! ## Inversion and evaluation of phrase closing -/

theorem closePhrase_ok {ms : List Mora} {acc : Option Nat} {interro pause : Bool}
    {pstart pos : Nat} {ph : AccentPhrase}
    (h : closePhrase ms acc interro pause pstart pos = .ok ph) :
    ms ≠ [] ∧ ∃ a, acc = some a ∧
      ph = ⟨ms, a, if pause then some silentMora else none, interro⟩ := by
  unfold closePhrase at h
  cases ms with
  | nil => exact Except.noConfusion h
  | cons m t =>
    cases acc with
    | none => exact Except.noConfusion h
    | some a =>
      refine ⟨by simp, a, rfl, ?_⟩
      injection h with h
      exact h.symm

theorem closePhrase_eq {ms : List Mora} (a : Nat) (h : ms ≠ [])
    (interro pause : Bool) (pstart pos : Nat) :
    closePhrase ms (some a) interro pause pstart pos =
      .ok ⟨ms, a, if pause then some silentMora else none, interro⟩ := by
  unfold closePhrase
  cases ms with
  | nil => exact absurd rfl h
  | cons m t => rfl

/-! ## Chained well-formedness -/

theorem chainPrev_concat (p : Option String) (ms : List Mora) (m : Mora) :
    chainPrev p (ms ++ [m]) = some m.vowel := by
  simp [chainPrev, List.getLast?_concat]

theorem chainPrev_cons (p : Option String) (m : Mora) (t : List Mora) :
    chainPrev p (m :: t) = chainPrev (some m.vowel) t := by
  cases t with
  | nil => simp [chainPrev]
  | cons x l =>
    unfold chainPrev
    rw [List.getLast?_cons_cons]
    cases hl : (x :: l).getLast? with
    | some y => rfl
    | none => simp at hl

theorem morasWF_concat {p : Option String} {ms : List Mora} {m : Mora}
    (h1 : morasWF p ms = true) (h2 : moraWF (chainPrev p ms) m = true) :
    morasWF p (ms ++ [m]) = true := by
  induction ms generalizing p with
  | nil =>
    simp only [List.nil_append, morasWF, Bool.and_eq_true]
    exact ⟨by simpa [chainPrev] using h2, trivial⟩
  | cons m0 t ih =>
    simp only [morasWF, Bool.and_eq_true] at h1
    simp only [List.cons_append, morasWF, Bool.and_eq_true]
    refine ⟨h1.1, ih h1.2 ?_⟩
    rwa [chainPrev_cons] at h2

/-! ## Single-step evaluation lemmas for the parser

These lemmas evaluate one unit of input on the success paths of
`parseLoop`; they are the building blocks of the round-trip proofs. -/

theorem parseLoop_step_eoi {ms : List Mora} {a : Nat} (hne : ms ≠ [])
    (pos : Nat) (done : List AccentPhrase) (pstart : Nat) :
    parseLoop [] pos done ms (some a) pstart = .ok (done ++ [⟨ms, a, none, false⟩]) := by
  have h0 : parseLoop [] pos done ms (some a) pstart
      = (match closePhrase ms (some a) false false pstart pos with
         | .error e => .error e
         | .ok ph => .ok (done ++ [ph])) := rfl
  rw [h0, closePhrase_eq a hne]
  rfl

theorem parseLoop_step_accent {ms : List Mora} (hne : ms.isEmpty = false)
    (rest : List Char) (pos : Nat) (done : List AccentPhrase) (pstart : Nat) :
    parseLoop (ACCENT_SYMBOL :: rest) pos done ms none pstart
      = parseLoop rest (pos + 1) done ms (some ms.length) pstart := by
  rw [parseLoop.eq_def]
  dsimp only
  rw [if_pos (rfl : ACCENT_SYMBOL = ACCENT_SYMBOL), hne]
  rfl

theorem parseLoop_step_nopause {ms : List Mora} {a : Nat} (hne : ms ≠ [])
    (rest : List Char) (pos : Nat) (done : List AccentPhrase) (pstart : Nat) :
    parseLoop (NOPAUSE_DELIMITER :: rest) pos done ms (some a) pstart
      = parseLoop rest (pos + 1) (done ++ [⟨ms, a, none, false⟩]) [] none (pos + 1) := by
  rw [parseLoop.eq_def]
  dsimp only
  rw [if_neg (by decide : ¬(NOPAUSE_DELIMITER = ACCENT_SYMBOL)),
    if_neg (by decide : ¬(NOPAUSE_DELIMITER = UNVOICE_SYMBOL)),
    if_pos (rfl : NOPAUSE_DELIMITER = NOPAUSE_DELIMITER),
    closePhrase_eq a hne]
  rfl

theorem parseLoop_step_pause {ms : List Mora} {a : Nat} (hne : ms ≠ [])
    (rest : List Char) (pos : Nat) (done : List AccentPhrase) (pstart : Nat) :
    parseLoop (PAUSE_DELIMITER :: rest) pos done ms (some a) pstart
      = parseLoop rest (pos + 1) (done ++ [⟨ms, a, some silentMora, false⟩]) [] none
          (pos + 1) := by
  rw [parseLoop.eq_def]
  dsimp only
  rw [if_neg (by decide : ¬(PAUSE_DELIMITER = ACCENT_SYMBOL)),
    if_neg (by decide : ¬(PAUSE_DELIMITER = UNVOICE_SYMBOL)),
    if_neg (by decide : ¬(PAUSE_DELIMITER = NOPAUSE_DELIMITER)),
    if_pos (rfl : PAUSE_DELIMITER = PAUSE_DELIMITER),
    closePhrase_eq a hne]
  rfl

theorem parseLoop_step_interrogation_eoi {ms : List Mora} {a : Nat} (hne : ms ≠ [])
    (pos : Nat) (done : List AccentPhrase) (pstart : Nat) :
    parseLoop [WIDE_INTERROGATION_MARK] pos done ms (some a) pstart
      = .ok (done ++ [⟨ms, a, none, true⟩]) := by
  rw [parseLoop.eq_def]
  dsimp only
  rw [if_neg (by decide : ¬(WIDE_INTERROGATION_MARK = ACCENT_SYMBOL)),
    if_neg (by decide : ¬(WIDE_INTERROGATION_MARK = UNVOICE_SYMBOL)),
    if_neg (by decide : ¬(WIDE_INTERROGATION_MARK = NOPAUSE_DELIMITER)),
    if_neg (by decide : ¬(WIDE_INTERROGATION_MARK = PAUSE_DELIMITER)),
    if_pos (rfl : WIDE_INTERROGATION_MARK = WIDE_INTERROGATION_MARK),
    closePhrase_eq a hne]
  rfl

theorem parseLoop_step_interrogation_nopause {ms : List Mora} {a : Nat} (hne : ms ≠ [])
    (rest2 : List Char) (pos : Nat) (done : List AccentPhrase) (pstart : Nat) :
    parseLoop (WIDE_INTERROGATION_MARK :: NOPAUSE_DELIMITER :: rest2) pos done ms
        (some a) pstart
      = parseLoop rest2 (pos + 2) (done ++ [⟨ms, a, none, true⟩]) [] none (pos + 2) := by
  rw [parseLoop.eq_def]
  dsimp only
  rw [if_neg (by decide : ¬(WIDE_INTERROGATION_MARK = ACCENT_SYMBOL)),
    if_neg (by decide : ¬(WIDE_INTERROGATION_MARK = UNVOICE_SYMBOL)),
    if_neg (by decide : ¬(WIDE_INTERROGATION_MARK = NOPAUSE_DELIMITER)),
    if_neg (by decide : ¬(WIDE_INTERROGATION_MARK = PAUSE_DELIMITER)),
    if_pos (rfl : WIDE_INTERROGATION_MARK = WIDE_INTERROGATION_MARK),
    if_pos (rfl : NOPAUSE_DELIMITER = NOPAUSE_DELIMITER),
    closePhrase_eq a hne]
  rfl

theorem parseLoop_step_interrogation_pause {ms : List Mora} {a : Nat} (hne : ms ≠ [])
    (rest2 : List Char) (pos : Nat) (done : List AccentPhrase) (pstart : Nat) :
    parseLoop (WIDE_INTERROGATION_MARK :: PAUSE_DELIMITER :: rest2) pos done ms
        (some a) pstart
      = parseLoop rest2 (pos + 2) (done ++ [⟨ms, a, some silentMora, true⟩]) [] none
          (pos + 2) := by
  rw [parseLoop.eq_def]
  dsimp only
  rw [if_neg (by decide : ¬(WIDE_INTERROGATION_MARK = ACCENT_SYMBOL)),
    if_neg (by decide : ¬(WIDE_INTERROGATION_MARK = UNVOICE_SYMBOL)),
    if_neg (by decide : ¬(WIDE_INTERROGATION_MARK = NOPAUSE_DELIMITER)),
    if_neg (by decide : ¬(WIDE_INTERROGATION_MARK = PAUSE_DELIMITER)),
    if_pos (rfl : WIDE_INTERROGATION_MARK = WIDE_INTERROGATION_MARK),
    if_neg (by decide : ¬(PAUSE_DELIMITER = NOPAUSE_DELIMITER)),
    if_pos (rfl : PAUSE_DELIMITER = PAUSE_DELIMITER),
    closePhrase_eq a hne]
  rfl

theorem parseLoop_step_long {ms : List Mora} {pm : Mora} (hlast : ms.getLast? = some pm)
    (rest : List Char) (pos : Nat) (done : List AccentPhrase) (acc : Option Nat)
    (pstart : Nat) :
    parseLoop (LONG_VOWEL_MARK :: rest) pos done ms acc pstart
      = parseLoop rest (pos + 1) done
          (ms ++ [⟨String.mk [LONG_VOWEL_MARK], none, none, voicedOf pm.vowel, none, none⟩])
          acc pstart := by
  rw [parseLoop.eq_def]
  dsimp only
  rw [if_neg (by decide : ¬(LONG_VOWEL_MARK = ACCENT_SYMBOL)),
    if_neg (by decide : ¬(LONG_VOWEL_MARK = UNVOICE_SYMBOL)),
    if_neg (by decide : ¬(LONG_VOWEL_MARK = NOPAUSE_DELIMITER)),
    if_neg (by decide : ¬(LONG_VOWEL_MARK = PAUSE_DELIMITER)),
    if_neg (by decide : ¬(LONG_VOWEL_MARK = WIDE_INTERROGATION_MARK)),
    if_pos (rfl : LONG_VOWEL_MARK = LONG_VOWEL_MARK), hlast]

theorem parseLoop_step_kana {c : Char} {cons : Option String} {vw : String}
    (htab : kanaTable c = some (cons, vw))
    (rest : List Char) (pos : Nat) (done : List AccentPhrase) (ms : List Mora)
    (acc : Option Nat) (pstart : Nat) :
    parseLoop (c :: rest) pos done ms acc pstart
      = parseLoop rest (pos + 1) done (ms ++ [⟨String.mk [c], cons, none, vw, none, none⟩])
          acc pstart := by
  have hmem := kanaTable_mem htab
  simp only [kanaEntries, List.mem_cons, List.not_mem_nil, or_false, Prod.mk.injEq] at hmem
  rcases hmem with h | h | h | h | h | h | h | h | h | h | h <;>
    (obtain ⟨rfl, rfl, rfl⟩ := h; rw [parseLoop.eq_def]; rfl)

theorem parseLoop_step_unvoice {c2 : Char} {cons : Option String} {vw dv : String}
    (htab : kanaTable c2 = some (cons, vw)) (hdv : devoiceVowel vw = some dv)
    (rest2 : List Char) (pos : Nat) (done : List AccentPhrase) (ms : List Mora)
    (acc : Option Nat) (pstart : Nat) :
    parseLoop (UNVOICE_SYMBOL :: c2 :: rest2) pos done ms acc pstart
      = parseLoop rest2 (pos + 2) done
          (ms ++ [⟨String.mk [c2], cons, none, dv, none, none⟩]) acc pstart := by
  have hmem := kanaTable_mem htab
  simp only [kanaEntries, List.mem_cons, List.not_mem_nil, or_false, Prod.mk.injEq] at hmem
  rcases hmem with h | h | h | h | h | h | h | h | h | h | h <;>
    obtain ⟨rfl, rfl, rfl⟩ := h
  · rw [show devoiceVowel "a" = some "A" from rfl] at hdv
    injection hdv with h; cases h; rw [parseLoop.eq_def]; rfl
  · rw [show devoiceVowel "i" = some "I" from rfl] at hdv
    injection hdv with h; cases h; rw [parseLoop.eq_def]; rfl
  · rw [show devoiceVowel "u" = some "U" from rfl] at hdv
    injection hdv with h; cases h; rw [parseLoop.eq_def]; rfl
  · rw [show devoiceVowel "o" = some "O" from rfl] at hdv
    injection hdv with h; cases h; rw [parseLoop.eq_def]; rfl
  · rw [show devoiceVowel "u" = some "U" from rfl] at hdv
    injection hdv with h; cases h; rw [parseLoop.eq_def]; rfl
  · rw [show devoiceVowel "i" = some "I" from rfl] at hdv
    injection hdv with h; cases h; rw [parseLoop.eq_def]; rfl
  · rw [show devoiceVowel "i" = some "I" from rfl] at hdv
    injection hdv with h; cases h; rw [parseLoop.eq_def]; rfl
  · rw [show devoiceVowel "i" = some "I" from rfl] at hdv
    injection hdv with h; cases h; rw [parseLoop.eq_def]; rfl
  · rw [show devoiceVowel "a" = some "A" from rfl] at hdv
    injection hdv with h; cases h; rw [parseLoop.eq_def]; rfl
  · rw [show devoiceVowel "a" = some "A" from rfl] at hdv
    injection hdv with h; cases h; rw [parseLoop.eq_def]; rfl
  · rw [show devoiceVowel "N" = none from rfl] at hdv
    exact Option.noConfusion hdv

/-! ## The serializer's output parses back, mora by mora -/

theorem parseLoop_mora {m : Mora} {ms : List Mora}
    (hwf : moraWF (chainPrev none ms) m = true) (hnum : moraNumNone m = true)
    (rest : List Char) (pos : Nat) (done : List AccentPhrase) (acc : Option Nat)
    (pstart : Nat) :
    parseLoop (createMoraChars m ++ rest) pos done ms acc pstart
      = parseLoop rest (pos + (createMoraChars m).length) done (ms ++ [m]) acc pstart := by
  obtain ⟨⟨mdata⟩, mcons, mcl, mvw, mvl, mp⟩ := m
  simp only [moraNumNone, Bool.and_eq_true, decide_eq_true_eq] at hnum
  obtain ⟨⟨hcl, hvl⟩, hp⟩ := hnum
  subst hcl; subst hvl; subst hp
  unfold moraWF at hwf
  dsimp only at hwf
  cases mdata with
  | nil => simp [moraCharWF] at hwf
  | cons c tl =>
    cases tl with
    | cons x xl => simp [moraCharWF] at hwf
    | nil =>
      simp only [moraCharWF] at hwf
      by_cases hc : c = LONG_VOWEL_MARK
      · subst hc
        rw [if_pos rfl] at hwf
        cases hprev : chainPrev none ms with
        | none => rw [hprev] at hwf; simp at hwf
        | some lv =>
          rw [hprev] at hwf
          simp only [Bool.and_eq_true, decide_eq_true_eq] at hwf
          obtain ⟨hcons, hvw⟩ := hwf
          subst hcons; subst hvw
          have hchars : createMoraChars
              ⟨⟨[LONG_VOWEL_MARK]⟩, none, none, voicedOf lv, none, none⟩
                = [LONG_VOWEL_MARK] := by
            simp [createMoraChars, voicedOf_voiced]
          rw [hchars]
          unfold chainPrev at hprev
          cases hlast : ms.getLast? with
          | none => rw [hlast] at hprev; exact Option.noConfusion hprev
          | some pm =>
            rw [hlast] at hprev
            simp only [Option.some.injEq] at hprev
            subst hprev
            exact parseLoop_step_long hlast rest pos done acc pstart
      · rw [if_neg hc] at hwf
        cases htab : kanaTable c with
        | none => rw [htab] at hwf; simp at hwf
        | some e =>
          obtain ⟨cons, vw⟩ := e
          rw [htab] at hwf
          simp only [Bool.and_eq_true, Bool.or_eq_true, decide_eq_true_eq] at hwf
          obtain ⟨hcons, hvowel⟩ := hwf
          cases hvowel with
          | inl hmv =>
            have hchars : createMoraChars ⟨⟨[c]⟩, mcons, none, mvw, none, none⟩ = [c] := by
              simp [createMoraChars, hmv, kanaTable_vowel_voiced htab]
            rw [hchars, hcons, hmv]
            exact parseLoop_step_kana htab rest pos done ms acc pstart
          | inr hdv =>
            have hchars : createMoraChars ⟨⟨[c]⟩, mcons, none, mvw, none, none⟩
                = [UNVOICE_SYMBOL, c] := by
              simp [createMoraChars, devoiceVowel_unvoiced hdv]
            rw [hchars, hcons]
            exact parseLoop_step_unvoice htab hdv rest pos done ms acc pstart

/-- Consuming an emitted mora sequence with exhausted accent counter: the
moras are appended and the accent state is untouched. -/
theorem parseLoop_emit_zero {ms : List Mora} :
    ∀ {ms0 : List Mora}, morasWF (chainPrev none ms0) ms = true →
      ms.all moraNumNone = true →
    ∀ (rest : List Char) (pos : Nat) (done : List AccentPhrase) (acc : Option Nat)
      (pstart : Nat),
      parseLoop (emitMoras ms 0 ++ rest) pos done ms0 acc pstart
        = parseLoop rest (pos + (emitMoras ms 0).length) done (ms0 ++ ms) acc pstart := by
  induction ms with
  | nil =>
    intro ms0 _ _ rest pos done acc pstart
    simp [emitMoras]
  | cons m t ih =>
    intro ms0 hwf hnum rest pos done acc pstart
    simp only [morasWF, Bool.and_eq_true] at hwf
    simp only [List.all_cons, Bool.and_eq_true] at hnum
    have hstep := parseLoop_mora hwf.1 hnum.1
      ((if (0 : Nat) = 1 then [ACCENT_SYMBOL] else []) ++ (emitMoras t 0 ++ rest))
      pos done acc pstart
    have hwf2 : morasWF (chainPrev none (ms0 ++ [m])) t = true := by
      rw [chainPrev_concat]; exact hwf.2
    have hrec := ih hwf2 hnum.2 rest (pos + (createMoraChars m).length) done acc pstart
    calc parseLoop (emitMoras (m :: t) 0 ++ rest) pos done ms0 acc pstart
        = parseLoop (createMoraChars m
            ++ ((if (0 : Nat) = 1 then [ACCENT_SYMBOL] else []) ++ (emitMoras t 0 ++ rest)))
            pos done ms0 acc pstart := by
          simp [emitMoras]
      _ = parseLoop (emitMoras t 0 ++ rest) (pos + (createMoraChars m).length) done
            (ms0 ++ [m]) acc pstart := by
          rw [hstep]; simp
      _ = parseLoop rest (pos + (createMoraChars m).length + (emitMoras t 0).length) done
            ((ms0 ++ [m]) ++ t) acc pstart := hrec
      _ = parseLoop rest (pos + (emitMoras (m :: t) 0).length) done (ms0 ++ (m :: t)) acc
            pstart := by
          simp only [emitMoras, List.append_assoc, List.singleton_append,
            List.length_append]
          simp [Nat.add_assoc]

/-- Consuming an emitted mora sequence with live accent counter
`1 ≤ a ≤ length`: the moras are appended and the accent becomes the
1-indexed position `length ms0 + a`. -/
theorem parseLoop_emit_acc {ms : List Mora} :
    ∀ {a : Nat} {ms0 : List Mora}, 1 ≤ a → a ≤ ms.length →
      morasWF (chainPrev none ms0) ms = true → ms.all moraNumNone = true →
    ∀ (rest : List Char) (pos : Nat) (done : List AccentPhrase) (pstart : Nat),
      parseLoop (emitMoras ms a ++ rest) pos done ms0 none pstart
        = parseLoop rest (pos + (emitMoras ms a).length) done (ms0 ++ ms)
            (some (ms0.length + a)) pstart := by
  induction ms with
  | nil =>
    intro a _ h1 h2
    exact absurd (Nat.le_trans h1 h2) (by simp)
  | cons m t ih =>
    intro a ms0 h1 h2 hwf hnum rest pos done pstart
    simp only [morasWF, Bool.and_eq_true] at hwf
    simp only [List.all_cons, Bool.and_eq_true] at hnum
    have hwf2 : morasWF (chainPrev none (ms0 ++ [m])) t = true := by
      rw [chainPrev_concat]; exact hwf.2
    by_cases ha : a = 1
    · subst ha
      have hstep := parseLoop_mora hwf.1 hnum.1
        (ACCENT_SYMBOL :: (emitMoras t 0 ++ rest)) pos done none pstart
      have hne : (ms0 ++ [m]).isEmpty = false := by simp
      have hacc := parseLoop_step_accent hne (emitMoras t 0 ++ rest)
        (pos + (createMoraChars m).length) done pstart
      have hrec := parseLoop_emit_zero hwf2 hnum.2 rest
        (pos + (createMoraChars m).length + 1) done (some (ms0 ++ [m]).length) pstart
      calc parseLoop (emitMoras (m :: t) 1 ++ rest) pos done ms0 none pstart
          = parseLoop (createMoraChars m ++ (ACCENT_SYMBOL :: (emitMoras t 0 ++ rest)))
              pos done ms0 none pstart := by
            simp [emitMoras]
        _ = parseLoop (ACCENT_SYMBOL :: (emitMoras t 0 ++ rest))
              (pos + (createMoraChars m).length) done (ms0 ++ [m]) none pstart := hstep
        _ = parseLoop (emitMoras t 0 ++ rest) (pos + (createMoraChars m).length + 1) done
              (ms0 ++ [m]) (some (ms0 ++ [m]).length) pstart := hacc
        _ = parseLoop rest (pos + (createMoraChars m).length + 1 + (emitMoras t 0).length)
              done ((ms0 ++ [m]) ++ t) (some (ms0 ++ [m]).length) pstart := hrec
        _ = parseLoop rest (pos + (emitMoras (m :: t) 1).length) done (ms0 ++ (m :: t))
              (some (ms0.length + 1)) pstart := by
            simp only [emitMoras, List.append_assoc, List.singleton_append,
              List.length_append]
            simp [Nat.add_assoc, Nat.add_left_comm, Nat.add_comm]
    · have ha2 : 1 ≤ a - 1 := by omega
      have ha3 : a - 1 ≤ t.length := by
        simp only [List.length_cons] at h2; omega
      have hstep := parseLoop_mora hwf.1 hnum.1
        ((if a = 1 then [ACCENT_SYMBOL] else []) ++ (emitMoras t (a - 1) ++ rest))
        pos done none pstart
      have hrec := ih ha2 ha3 hwf2 hnum.2 rest (pos + (createMoraChars m).length) done
        pstart
      calc parseLoop (emitMoras (m :: t) a ++ rest) pos done ms0 none pstart
          = parseLoop (createMoraChars m
              ++ ((if a = 1 then [ACCENT_SYMBOL] else []) ++ (emitMoras t (a - 1) ++ rest)))
              pos done ms0 none pstart := by
            simp [emitMoras]
        _ = parseLoop ((if a = 1 then [ACCENT_SYMBOL] else []) ++ (emitMoras t (a - 1) ++ rest))
              (pos + (createMoraChars m).length) done (ms0 ++ [m]) none pstart := hstep
        _ = parseLoop (emitMoras t (a - 1) ++ rest) (pos + (createMoraChars m).length)
              done (ms0 ++ [m]) none pstart := by
            rw [if_neg ha]
            simp
        _ = parseLoop rest (pos + (createMoraChars m).length + (emitMoras t (a - 1)).length)
              done ((ms0 ++ [m]) ++ t) (some ((ms0 ++ [m]).length + (a - 1))) pstart := hrec
        _ = parseLoop rest (pos + (emitMoras (m :: t) a).length) done (ms0 ++ (m :: t))
              (some (ms0.length + a)) pstart := by
            have hlen : (ms0 ++ [m]).length + (a - 1) = ms0.length + a := by
              simp only [List.length_append, List.length_cons, List.length_nil]
              omega
            rw [hlen]
            simp only [emitMoras, if_neg ha, List.append_assoc, List.nil_append,
              List.singleton_append, List.length_append]
            simp [Nat.add_assoc]

/-! ## Decomposition of list well-formedness -/

theorem parsedOK_single {ph : AccentPhrase} (h : parsedOK [ph] = true) :
    phraseParsedWF ph = true ∧ ph.pause_mora = none := by
  simp only [parsedOK, List.isEmpty_cons, Bool.not_false, List.all_cons, List.all_nil,
    Bool.and_true, List.getLast?_singleton, Option.map_some', Bool.and_eq_true,
    decide_eq_true_eq, Option.some.injEq, true_and] at h
  exact h

theorem parsedOK_cons {ph ph2 : AccentPhrase} {t : List AccentPhrase}
    (h : parsedOK (ph :: ph2 :: t) = true) :
    phraseParsedWF ph = true ∧ parsedOK (ph2 :: t) = true := by
  simp only [parsedOK, List.isEmpty_cons, Bool.not_false, List.all_cons,
    List.getLast?_cons_cons, Bool.and_eq_true, true_and] at h ⊢
  exact ⟨h.1.1, h.1.2, h.2⟩

theorem phraseParsedWF_parts {ph : AccentPhrase} (h : phraseParsedWF ph = true) :
    ph.moras ≠ [] ∧ 1 ≤ ph.accent ∧ ph.accent ≤ ph.moras.length ∧
      morasWF none ph.moras = true ∧ ph.moras.all moraNumNone = true ∧
      (ph.pause_mora = none ∨ ph.pause_mora = some silentMora) := by
  simp only [phraseParsedWF, phraseGramWF, Bool.and_eq_true, Bool.not_eq_true',
    List.isEmpty_eq_false_iff_exists_mem, decide_eq_true_eq, Bool.or_eq_true] at h
  obtain ⟨⟨⟨⟨⟨hne, h1⟩, h2⟩, h3⟩, h4⟩, h5⟩ := h
  refine ⟨?_, h1, h2, h3, h4, h5⟩
  obtain ⟨x, hx⟩ := hne
  intro hnil
  rw [hnil] at hx
  exact List.not_mem_nil x hx

/-! ## The full reverse round trip on parser-shaped phrase lists -/

theorem parseLoop_phrases {ps : List AccentPhrase} (h : parsedOK ps = true) :
    ∀ (pos : Nat) (done : List AccentPhrase) (pstart : Nat),
      parseLoop (createChars ps) pos done [] none pstart = .ok (done ++ ps) := by
  induction ps with
  | nil => simp [parsedOK] at h
  | cons ph t ih =>
    intro pos done pstart
    cases t with
    | nil =>
      obtain ⟨hph, hpause⟩ := parsedOK_single h
      obtain ⟨hmne, hacc1, hacc2, hwf, hnum, -⟩ := phraseParsedWF_parts hph
      obtain ⟨pmoras, paccent, ppause, pint⟩ := ph
      dsimp only at hmne hacc1 hacc2 hwf hnum hpause
      subst hpause
      have hemit := @parseLoop_emit_acc pmoras paccent [] hacc1 hacc2
        (by simpa [chainPrev] using hwf) hnum
        (if pint then [WIDE_INTERROGATION_MARK] else []) pos done pstart
      simp only [List.length_nil, Nat.zero_add, List.nil_append] at hemit
      have hcc : createChars [(⟨pmoras, paccent, none, pint⟩ : AccentPhrase)]
          = emitMoras pmoras paccent
            ++ (if pint then [WIDE_INTERROGATION_MARK] else []) := by
        simp [createChars, createPhraseChars]
      rw [hcc, hemit]
      cases pint with
      | false =>
        simp only [Bool.false_eq_true, if_false]
        rw [parseLoop_step_eoi hmne]
      | true =>
        simp only [eq_self_iff_true, if_true]
        rw [parseLoop_step_interrogation_eoi hmne]
    | cons ph2 t2 =>
      obtain ⟨hph, hrest⟩ := parsedOK_cons h
      obtain ⟨hmne, hacc1, hacc2, hwf, hnum, hpc⟩ := phraseParsedWF_parts hph
      obtain ⟨pmoras, paccent, ppause, pint⟩ := ph
      dsimp only at hmne hacc1 hacc2 hwf hnum hpc
      have hemit := @parseLoop_emit_acc pmoras paccent [] hacc1 hacc2
        (by simpa [chainPrev] using hwf) hnum
        ((if pint then [WIDE_INTERROGATION_MARK] else [])
          ++ ([if ppause.isSome then PAUSE_DELIMITER else NOPAUSE_DELIMITER]
            ++ createChars (ph2 :: t2))) pos done pstart
      simp only [List.length_nil, Nat.zero_add, List.nil_append] at hemit
      have hcc : createChars (⟨pmoras, paccent, ppause, pint⟩ :: ph2 :: t2)
          = emitMoras pmoras paccent
            ++ ((if pint then [WIDE_INTERROGATION_MARK] else [])
              ++ ([if ppause.isSome then PAUSE_DELIMITER else NOPAUSE_DELIMITER]
                ++ createChars (ph2 :: t2))) := by
        simp [createChars, createPhraseChars]
      rw [hcc, hemit]
      cases hpc with
      | inl hnone =>
        subst hnone
        cases pint with
        | false =>
          simp only [Option.isSome_none, Bool.false_eq_true, if_false, List.nil_append,
            List.singleton_append]
          rw [parseLoop_step_nopause hmne, ih hrest]
          simp
        | true =>
          simp only [Option.isSome_none, Bool.false_eq_true, if_false, eq_self_iff_true,
            if_true, List.singleton_append]
          rw [parseLoop_step_interrogation_nopause hmne, ih hrest]
          simp
      | inr hsome =>
        subst hsome
        cases pint with
        | false =>
          simp only [Option.isSome_some, Bool.false_eq_true, if_false, eq_self_iff_true,
            if_true, List.nil_append, List.singleton_append]
          rw [parseLoop_step_pause hmne, ih hrest]
          simp
        | true =>
          simp only [Option.isSome_some, eq_self_iff_true, if_true,
            List.singleton_append]
          rw [parseLoop_step_interrogation_pause hmne, ih hrest]
          simp

/-- The reverse round trip: serializing a parser-shaped phrase list and
parsing the result returns exactly the original list. -/
theorem parse_create_round_trip {ps : List AccentPhrase} (h : parsedOK ps = true) :
    parse_kana (create_kana ps) = .ok ps := by
  have := parseLoop_phrases h 0 [] 0
  simpa [parse_kana, create_kana] using this

/-! ## Soundness of the parser: delimiters and well-formedness

The delimiter characters of the input determine, position by position, the
pause moras of the output. -/

/-- The pause mora contributed by the delimiter that closed a phrase. -/
def pauseOfDelim (d : Char) : Option Mora :=
  if d = PAUSE_DELIMITER then some silentMora else none

/-- The phrase-delimiter characters of an input, in order. -/
def delimsOf (s : List Char) : List Char :=
  s.filter (fun c => decide (c = NOPAUSE_DELIMITER) || decide (c = PAUSE_DELIMITER))

theorem delimsOf_cons_not {c : Char} {rest : List Char}
    (h1 : ¬c = NOPAUSE_DELIMITER) (h2 : ¬c = PAUSE_DELIMITER) :
    delimsOf (c :: rest) = delimsOf rest := by
  simp [delimsOf, List.filter_cons, h1, h2]

theorem delimsOf_cons_nopause (rest : List Char) :
    delimsOf (NOPAUSE_DELIMITER :: rest) = NOPAUSE_DELIMITER :: delimsOf rest := by
  simp [delimsOf, List.filter_cons]

theorem delimsOf_cons_pause (rest : List Char) :
    delimsOf (PAUSE_DELIMITER :: rest) = PAUSE_DELIMITER :: delimsOf rest := by
  simp [delimsOf, List.filter_cons]

theorem pauseOfDelim_nopause : pauseOfDelim NOPAUSE_DELIMITER = none := by
  simp [pauseOfDelim]
  decide

theorem pauseOfDelim_pause : pauseOfDelim PAUSE_DELIMITER = some silentMora := by
  simp [pauseOfDelim]

/-- Build the well-formedness of a phrase from the invariants the parser
maintains. -/
theorem phraseParsedWF_build {ms : List Mora} {a : Nat} {pause : Option Mora}
    {intr : Bool} (hne : ms ≠ []) (h1 : 1 ≤ a) (h2 : a ≤ ms.length)
    (hwf : morasWF none ms = true) (hnum : ms.all moraNumNone = true)
    (hp : pause = none ∨ pause = some silentMora) :
    phraseParsedWF ⟨ms, a, pause, intr⟩ = true := by
  have hne2 : ms.isEmpty = false := by
    cases ms with
    | nil => exact absurd rfl hne
    | cons x l => rfl
  cases hp with
  | inl hp => subst hp; simp [phraseParsedWF, phraseGramWF, hne2, h1, h2, hwf, hnum]
  | inr hp => subst hp; simp [phraseParsedWF, phraseGramWF, hne2, h1, h2, hwf, hnum]

theorem chainPrev_of_getLast {ms : List Mora} {pm : Mora} (p : Option String)
    (h : ms.getLast? = some pm) : chainPrev p ms = some pm.vowel := by
  unfold chainPrev
  rw [h]

theorem moraWF_kana {c : Char} {cons : Option String} {vw : String}
    (prev : Option String) (htab : kanaTable c = some (cons, vw)) :
    moraWF prev ⟨String.mk [c], cons, none, vw, none, none⟩ = true := by
  have hns := kanaTable_not_special htab
  simp [moraWF, moraCharWF, hns.2.2.2.2.2, htab]

theorem moraWF_unvoice {c : Char} {cons : Option String} {vw dv : String}
    (prev : Option String) (htab : kanaTable c = some (cons, vw))
    (hdv : devoiceVowel vw = some dv) :
    moraWF prev ⟨String.mk [c], cons, none, dv, none, none⟩ = true := by
  have hns := kanaTable_not_special htab
  simp [moraWF, moraCharWF, hns.2.2.2.2.2, htab, hdv]

theorem moraWF_long {ms : List Mora} {pm : Mora} (h : ms.getLast? = some pm) :
    moraWF (chainPrev none ms)
      ⟨String.mk [LONG_VOWEL_MARK], none, none, voicedOf pm.vowel, none, none⟩ = true := by
  rw [chainPrev_of_getLast none h]
  simp [moraWF, moraCharWF]


theorem sound_close_ok {ms : List Mora} {acc : Option Nat} {interro pause : Bool}
    {pstart pos : Nat} {ph : AccentPhrase}
    (hclose : closePhrase ms acc interro pause pstart pos = .ok ph)
    (hms : morasWF none ms = true) (hnum : ms.all moraNumNone = true)
    (hacc : ∀ a, acc = some a → 1 ≤ a ∧ a ≤ ms.length) :
    phraseParsedWF ph = true ∧
      ph.pause_mora = (if pause then some silentMora else none) := by
  obtain ⟨hne, a, hacc2, hph⟩ := closePhrase_ok hclose
  subst hph
  have hb := hacc a hacc2
  refine ⟨?_, rfl⟩
  exact phraseParsedWF_build hne hb.1 hb.2 hms hnum (by cases pause <;> simp)

set_option maxHeartbeats 1000000 in
theorem parseLoop_sound (input : List Char) (pos : Nat) (done : List AccentPhrase)
    (ms : List Mora) (acc : Option Nat) (pstart : Nat) :
    ∀ result, parseLoop input pos done ms acc pstart = .ok result →
      morasWF none ms = true → ms.all moraNumNone = true →
      (∀ a, acc = some a → 1 ≤ a ∧ a ≤ ms.length) →
      ∃ extra, result = done ++ extra ∧
        extra.map AccentPhrase.pause_mora = (delimsOf input).map pauseOfDelim ++ [none] ∧
        ∀ ph ∈ extra, phraseParsedWF ph = true := by
  induction input, pos, done, ms, acc, pstart using parseLoop.induct with
  | case1 pos done ms acc pstart e hclose =>
    intro result hr hms hnum hacc
    have h0 : parseLoop [] pos done ms acc pstart
        = (match closePhrase ms acc false false pstart pos with
           | .error e => .error e
           | .ok ph => .ok (done ++ [ph])) := rfl
    rw [h0, hclose] at hr
    exact Except.noConfusion hr
  | case2 pos done ms acc pstart ph hclose =>
    intro result hr hms hnum hacc
    have h0 : parseLoop [] pos done ms acc pstart
        = (match closePhrase ms acc false false pstart pos with
           | .error e => .error e
           | .ok ph => .ok (done ++ [ph])) := rfl
    rw [h0, hclose] at hr
    dsimp only at hr
    injection hr with hr
    obtain ⟨hwfph, hpd⟩ := sound_close_ok hclose hms hnum hacc
    refine ⟨[ph], hr.symm, ?_, ?_⟩
    · simp [delimsOf, hpd]
    · intro ph2 hmem
      rw [List.mem_singleton] at hmem
      subst hmem
      exact hwfph
  | case3 rest pos done ms acc pstart hempty =>
    intro result hr hms hnum hacc
    rw [parseLoop.eq_def] at hr
    dsimp only at hr
    rw [if_pos rfl, hempty] at hr
    simp at hr
  | case4 rest pos done ms pstart hempty val =>
    intro result hr hms hnum hacc
    rw [parseLoop.eq_def] at hr
    dsimp only at hr
    rw [if_pos rfl] at hr
    rw [Bool.not_eq_true] at hempty
    rw [hempty] at hr
    simp at hr
  | case5 rest pos done ms pstart hempty ih =>
    intro result hr hms hnum hacc
    rw [Bool.not_eq_true] at hempty
    rw [parseLoop_step_accent hempty] at hr
    have hlen : 1 ≤ ms.length := by
      cases ms with
      | nil => simp at hempty
      | cons x l => simp
    have hacc2 : ∀ a, (some ms.length : Option Nat) = some a →
        1 ≤ a ∧ a ≤ ms.length := by
      intro a ha
      injection ha with ha
      subst ha
      exact ⟨hlen, Nat.le_refl _⟩
    obtain ⟨extra, hre, hmap, hwfall⟩ := ih result hr hms hnum hacc2
    refine ⟨extra, hre, ?_, hwfall⟩
    rw [delimsOf_cons_not (by decide : ¬(ACCENT_SYMBOL = NOPAUSE_DELIMITER))
      (by decide : ¬(ACCENT_SYMBOL = PAUSE_DELIMITER))]
    exact hmap
  | case6 pos done ms acc pstart hne =>
    intro result hr hms hnum hacc
    have h0 : parseLoop [UNVOICE_SYMBOL] pos done ms acc pstart
        = .error ⟨.DevoicingOnInvalidMora, pos + 1⟩ := rfl
    rw [h0] at hr
    exact Except.noConfusion hr
  | case7 pos done ms acc pstart c2 rest2 htab hne =>
    intro result hr hms hnum hacc
    rw [parseLoop.eq_def] at hr
    dsimp only at hr
    rw [if_neg (by decide : ¬(UNVOICE_SYMBOL = ACCENT_SYMBOL)), if_pos rfl, htab] at hr
    simp at hr
  | case8 pos done ms acc pstart c2 rest2 cons vw htab hdv hne =>
    intro result hr hms hnum hacc
    rw [parseLoop.eq_def] at hr
    dsimp only at hr
    rw [if_neg (by decide : ¬(UNVOICE_SYMBOL = ACCENT_SYMBOL)), if_pos rfl, htab] at hr
    dsimp only at hr
    rw [hdv] at hr
    simp at hr
  | case9 pos done ms acc pstart c2 rest2 cons vw htab dv hdv hne ih =>
    intro result hr hms hnum hacc
    rw [parseLoop_step_unvoice htab hdv] at hr
    obtain ⟨extra, hre, hmap, hwfall⟩ :=
      ih result hr (morasWF_concat hms (moraWF_unvoice _ htab hdv))
        (by simp [List.all_append, hnum, moraNumNone])
        (fun a ha => ⟨(hacc a ha).1, Nat.le_trans (hacc a ha).2 (by simp)⟩)
    refine ⟨extra, hre, ?_, hwfall⟩
    have hns := kanaTable_not_special htab
    rw [delimsOf_cons_not (by decide : ¬(UNVOICE_SYMBOL = NOPAUSE_DELIMITER))
      (by decide : ¬(UNVOICE_SYMBOL = PAUSE_DELIMITER)),
      delimsOf_cons_not hns.2.2.1 hns.2.2.2.1]
    exact hmap
  | case10 rest pos done ms acc pstart e hclose h1 h2 =>
    intro result hr hms hnum hacc
    rw [parseLoop.eq_def] at hr
    dsimp only at hr
    rw [if_neg h1, if_neg h2, if_pos rfl, hclose] at hr
    simp at hr
  | case11 rest pos done ms acc pstart ph hclose h1 h2 ih =>
    intro result hr hms hnum hacc
    rw [parseLoop.eq_def] at hr
    dsimp only at hr
    rw [if_neg h1, if_neg h2, if_pos rfl, hclose] at hr
    dsimp only at hr
    obtain ⟨hwfph, hpd⟩ := sound_close_ok hclose hms hnum hacc
    obtain ⟨extra, hre, hmap, hwfall⟩ := ih result hr rfl rfl
      (fun a ha => Option.noConfusion ha)
    refine ⟨ph :: extra, by simp [hre], ?_, ?_⟩
    · rw [delimsOf_cons_nopause]
      simp only [List.map_cons, pauseOfDelim_nopause]
      rw [hmap, hpd]
      simp
    · intro ph2 hmem
      rw [List.mem_cons] at hmem
      cases hmem with
      | inl h => subst h; exact hwfph
      | inr h => exact hwfall ph2 h
  | case12 rest pos done ms acc pstart e hclose h1 h2 h3 =>
    intro result hr hms hnum hacc
    rw [parseLoop.eq_def] at hr
    dsimp only at hr
    rw [if_neg h1, if_neg h2, if_neg h3, if_pos rfl, hclose] at hr
    simp at hr
  | case13 rest pos done ms acc pstart ph hclose h1 h2 h3 ih =>
    intro result hr hms hnum hacc
    rw [parseLoop.eq_def] at hr
    dsimp only at hr
    rw [if_neg h1, if_neg h2, if_neg h3, if_pos rfl, hclose] at hr
    dsimp only at hr
    obtain ⟨hwfph, hpd⟩ := sound_close_ok hclose hms hnum hacc
    obtain ⟨extra, hre, hmap, hwfall⟩ := ih result hr rfl rfl
      (fun a ha => Option.noConfusion ha)
    refine ⟨ph :: extra, by simp [hre], ?_, ?_⟩
    · rw [delimsOf_cons_pause]
      simp only [List.map_cons, pauseOfDelim_pause]
      rw [hmap, hpd]
      simp
    · intro ph2 hmem
      rw [List.mem_cons] at hmem
      cases hmem with
      | inl h => subst h; exact hwfph
      | inr h => exact hwfall ph2 h
  | case14 pos done ms acc pstart e hclose h1 h2 h3 h4 =>
    intro result hr hms hnum hacc
    rw [parseLoop.eq_def] at hr
    dsimp only at hr
    rw [if_neg h1, if_neg h2, if_neg h3, if_neg h4, if_pos rfl, hclose] at hr
    simp at hr
  | case15 pos done ms acc pstart ph hclose h1 h2 h3 h4 =>
    intro result hr hms hnum hacc
    rw [parseLoop.eq_def] at hr
    dsimp only at hr
    rw [if_neg h1, if_neg h2, if_neg h3, if_neg h4, if_pos rfl, hclose] at hr
    dsimp only at hr
    injection hr with hr
    obtain ⟨hwfph, hpd⟩ := sound_close_ok hclose hms hnum hacc
    refine ⟨[ph], hr.symm, ?_, ?_⟩
    · rw [delimsOf_cons_not (by decide) (by decide)]
      simp [delimsOf, hpd]
    · intro ph2 hmem
      rw [List.mem_singleton] at hmem
      subst hmem
      exact hwfph
  | case16 pos done ms acc pstart rest2 e hclose h1 h2 h3 h4 =>
    intro result hr hms hnum hacc
    rw [parseLoop.eq_def] at hr
    dsimp only at hr
    rw [if_neg h1, if_neg h2, if_neg h3, if_neg h4, if_pos rfl, if_pos rfl, hclose] at hr
    simp at hr
  | case17 pos done ms acc pstart rest2 ph hclose h1 h2 h3 h4 ih =>
    intro result hr hms hnum hacc
    rw [parseLoop.eq_def] at hr
    dsimp only at hr
    rw [if_neg h1, if_neg h2, if_neg h3, if_neg h4, if_pos rfl, if_pos rfl, hclose] at hr
    dsimp only at hr
    obtain ⟨hwfph, hpd⟩ := sound_close_ok hclose hms hnum hacc
    obtain ⟨extra, hre, hmap, hwfall⟩ := ih result hr rfl rfl
      (fun a ha => Option.noConfusion ha)
    refine ⟨ph :: extra, by simp [hre], ?_, ?_⟩
    · rw [delimsOf_cons_not (by decide) (by decide), delimsOf_cons_nopause]
      simp only [List.map_cons, pauseOfDelim_nopause]
      rw [hmap, hpd]
      simp
    · intro ph2 hmem
      rw [List.mem_cons] at hmem
      cases hmem with
      | inl h => subst h; exact hwfph
      | inr h => exact hwfall ph2 h
  | case18 pos done ms acc pstart rest2 e hclose h1 h2 h3 h4 h5 =>
    intro result hr hms hnum hacc
    rw [parseLoop.eq_def] at hr
    dsimp only at hr
    rw [if_neg h1, if_neg h2, if_neg h3, if_neg h4, if_pos rfl, if_neg h5, if_pos rfl,
      hclose] at hr
    simp at hr
  | case19 pos done ms acc pstart rest2 ph hclose h1 h2 h3 h4 h5 ih =>
    intro result hr hms hnum hacc
    rw [parseLoop.eq_def] at hr
    dsimp only at hr
    rw [if_neg h1, if_neg h2, if_neg h3, if_neg h4, if_pos rfl, if_neg h5, if_pos rfl,
      hclose] at hr
    dsimp only at hr
    obtain ⟨hwfph, hpd⟩ := sound_close_ok hclose hms hnum hacc
    obtain ⟨extra, hre, hmap, hwfall⟩ := ih result hr rfl rfl
      (fun a ha => Option.noConfusion ha)
    refine ⟨ph :: extra, by simp [hre], ?_, ?_⟩
    · rw [delimsOf_cons_not (by decide) (by decide), delimsOf_cons_pause]
      simp only [List.map_cons, pauseOfDelim_pause]
      rw [hmap, hpd]
      simp
    · intro ph2 hmem
      rw [List.mem_cons] at hmem
      cases hmem with
      | inl h => subst h; exact hwfph
      | inr h => exact hwfall ph2 h
  | case20 pos done ms acc pstart c2 rest2 hc1 hc2 h1 h2 h3 h4 =>
    intro result hr hms hnum hacc
    rw [parseLoop.eq_def] at hr
    dsimp only at hr
    rw [if_neg h1, if_neg h2, if_neg h3, if_neg h4, if_pos rfl, if_neg hc1, if_neg hc2]
      at hr
    simp at hr
  | case21 rest pos done ms acc pstart hlast h1 h2 h3 h4 h5 =>
    intro result hr hms hnum hacc
    rw [parseLoop.eq_def] at hr
    dsimp only at hr
    rw [if_neg h1, if_neg h2, if_neg h3, if_neg h4, if_neg h5, if_pos rfl, hlast] at hr
    simp at hr
  | case22 rest pos done ms acc pstart prev hlast h1 h2 h3 h4 h5 ih =>
    intro result hr hms hnum hacc
    rw [parseLoop_step_long hlast] at hr
    obtain ⟨extra, hre, hmap, hwfall⟩ :=
      ih result hr (morasWF_concat hms (moraWF_long hlast))
        (by simp [List.all_append, hnum, moraNumNone])
        (fun a ha => ⟨(hacc a ha).1, Nat.le_trans (hacc a ha).2 (by simp)⟩)
    refine ⟨extra, hre, ?_, hwfall⟩
    rw [delimsOf_cons_not (by decide : ¬(LONG_VOWEL_MARK = NOPAUSE_DELIMITER))
      (by decide : ¬(LONG_VOWEL_MARK = PAUSE_DELIMITER))]
    exact hmap
  | case23 c rest pos done ms acc pstart h1 h2 h3 h4 h5 h6 htab =>
    intro result hr hms hnum hacc
    rw [parseLoop.eq_def] at hr
    dsimp only at hr
    rw [if_neg h1, if_neg h2, if_neg h3, if_neg h4, if_neg h5, if_neg h6, htab] at hr
    simp at hr
  | case24 c rest pos done ms acc pstart h1 h2 h3 h4 h5 h6 cons vw htab ih =>
    intro result hr hms hnum hacc
    rw [parseLoop_step_kana htab] at hr
    obtain ⟨extra, hre, hmap, hwfall⟩ :=
      ih result hr (morasWF_concat hms (moraWF_kana _ htab))
        (by simp [List.all_append, hnum, moraNumNone])
        (fun a ha => ⟨(hacc a ha).1, Nat.le_trans (hacc a ha).2 (by simp)⟩)
    refine ⟨extra, hre, ?_, hwfall⟩
    rw [delimsOf_cons_not h3 h4]
    exact hmap

/-- Every successful parse yields a parser-shaped phrase list. -/
theorem parse_kana_parsedOK {s : String} {r : List AccentPhrase}
    (h : parse_kana s = .ok r) : parsedOK r = true := by
  obtain ⟨extra, hre, hmap, hwf⟩ := parseLoop_sound s.data 0 [] [] none 0 r h rfl rfl
    (fun a ha => Option.noConfusion ha)
  rw [List.nil_append] at hre
  subst hre
  have hne : r ≠ [] := by
    intro hnil
    rw [hnil] at hmap
    simp at hmap
  have hie : r.isEmpty = false := by
    cases r with
    | nil => exact absurd rfl hne
    | cons x l => rfl
  have hlast : r.getLast?.map AccentPhrase.pause_mora = some none := by
    rw [← List.getLast?_map, hmap, List.getLast?_concat]
  have h1 : r.all phraseParsedWF = true := List.all_eq_true.mpr hwf
  have h2 : decide (r.getLast?.map AccentPhrase.pause_mora = some none) = true :=
    decide_eq_true hlast
  unfold parsedOK
  rw [hie, h1, h2]
  rfl

/-- The pause moras of a successful parse, phrase by phrase, are exactly
determined by the delimiters of the input: a phrase closed by the pause
delimiter carries the synthesized silent mora, one closed by the plain
delimiter carries none, and the final phrase (closed by end of input)
carries none. -/
theorem parse_kana_pauses {s : String} {r : List AccentPhrase}
    (h : parse_kana s = .ok r) :
    r.map AccentPhrase.pause_mora = (delimsOf s.data).map pauseOfDelim ++ [none] := by
  obtain ⟨extra, hre, hmap, -⟩ := parseLoop_sound s.data 0 [] [] none 0 r h rfl rfl
    (fun a ha => Option.noConfusion ha)
  rw [List.nil_append] at hre
  subst hre
  exact hmap

/-! ## Canonicalization and the grammar-relevant projection

The grammar-relevant content of a mora is its text, consonant and vowel;
of a phrase, additionally the accent index, the presence of a pause mora,
and the interrogative flag.  Numeric duration/pitch fields are excluded. -/

/-- The grammar-relevant content of a mora: text, consonant, vowel. -/
structure GMora where
  text : String
  consonant : Option String
  vowel : String
deriving DecidableEq

/-- The grammar-relevant content of a phrase: mora identities, accent
index, pause-mora presence, interrogative flag. -/
structure GPhrase where
  moras : List GMora
  accent : Nat
  hasPause : Bool
  is_interrogative : Bool
deriving DecidableEq

/-- The grammar-relevant projection of a mora. -/
def graMora (m : Mora) : GMora :=
  ⟨m.text, m.consonant, m.vowel⟩

/-- The grammar-relevant projection of a phrase. -/
def graPhrase (ph : AccentPhrase) : GPhrase :=
  ⟨ph.moras.map graMora, ph.accent, ph.pause_mora.isSome, ph.is_interrogative⟩

/-- The grammar-relevant projection of a phrase list. -/
def graList (ps : List AccentPhrase) : List GPhrase :=
  ps.map graPhrase

/-- Erase the numeric fields of a mora, as the parser leaves them. -/
def canonMora (m : Mora) : Mora :=
  { m with consonant_length := none, vowel_length := none, pitch := none }

/-- Canonicalize a phrase: erase numeric fields and replace any pause mora
by the synthesized silent one. -/
def canonPhrase (ph : AccentPhrase) : AccentPhrase :=
  { moras := ph.moras.map canonMora
    accent := ph.accent
    pause_mora := ph.pause_mora.map (fun _ => silentMora)
    is_interrogative := ph.is_interrogative }

/-- Canonicalize a phrase list. -/
def canonList (ps : List AccentPhrase) : List AccentPhrase :=
  ps.map canonPhrase

theorem createMoraChars_canon (m : Mora) :
    createMoraChars (canonMora m) = createMoraChars m := rfl

theorem emitMoras_canon (ms : List Mora) (a : Nat) :
    emitMoras (ms.map canonMora) a = emitMoras ms a := by
  induction ms generalizing a with
  | nil => rfl
  | cons m t ih => simp [emitMoras, createMoraChars_canon, ih]

theorem createPhraseChars_canon (ph : AccentPhrase) :
    createPhraseChars (canonPhrase ph) = createPhraseChars ph := by
  simp [createPhraseChars, canonPhrase, emitMoras_canon]

theorem createChars_canon (ps : List AccentPhrase) :
    createChars (canonList ps) = createChars ps := by
  induction ps with
  | nil => rfl
  | cons ph t ih =>
    cases t with
    | nil => simp [canonList, createChars, createPhraseChars_canon]
    | cons ph2 t2 =>
      have hpp : (canonPhrase ph).pause_mora.isSome = ph.pause_mora.isSome := by
        simp [canonPhrase]
      simp only [canonList, List.map_cons] at ih ⊢
      simp only [createChars]
      rw [createPhraseChars_canon, hpp, ih]

theorem moraWF_canon (p : Option String) (m : Mora) :
    moraWF p (canonMora m) = moraWF p m := rfl

theorem morasWF_canon (p : Option String) (ms : List Mora) :
    morasWF p (ms.map canonMora) = morasWF p ms := by
  induction ms generalizing p with
  | nil => rfl
  | cons m t ih =>
    have hv : (canonMora m).vowel = m.vowel := rfl
    simp [morasWF, moraWF_canon, hv, ih]

theorem moraNumNone_canon (m : Mora) : moraNumNone (canonMora m) = true := rfl

theorem grammarOK_parts {ps : List AccentPhrase} (h : grammarOK ps = true) :
    ps ≠ [] ∧ (∀ ph ∈ ps, phraseGramWF ph = true) ∧
      ps.getLast?.map AccentPhrase.pause_mora = some none := by
  simp only [grammarOK, Bool.and_eq_true, Bool.not_eq_true', List.all_eq_true,
    decide_eq_true_eq] at h
  refine ⟨?_, h.1.2, h.2⟩
  intro hnil
  rw [hnil] at h
  simp at h

theorem phraseGramWF_parts {ph : AccentPhrase} (h : phraseGramWF ph = true) :
    ph.moras ≠ [] ∧ 1 ≤ ph.accent ∧ ph.accent ≤ ph.moras.length ∧
      morasWF none ph.moras = true := by
  simp only [phraseGramWF, Bool.and_eq_true, Bool.not_eq_true',
    List.isEmpty_eq_false_iff_exists_mem, decide_eq_true_eq] at h
  obtain ⟨⟨⟨⟨x, hx⟩, h1⟩, h2⟩, h3⟩ := h
  refine ⟨?_, h1, h2, h3⟩
  intro hnil
  rw [hnil] at hx
  exact List.not_mem_nil x hx

theorem canonList_parsedOK {ps : List AccentPhrase} (h : grammarOK ps = true) :
    parsedOK (canonList ps) = true := by
  obtain ⟨hne, hall, hlast⟩ := grammarOK_parts h
  have hie : (canonList ps).isEmpty = false := by
    cases ps with
    | nil => exact absurd rfl hne
    | cons x l => rfl
  have hallc : ∀ ph ∈ canonList ps, phraseParsedWF ph = true := by
    intro ph hmem
    rw [canonList, List.mem_map] at hmem
    obtain ⟨ph0, hmem0, hph0⟩ := hmem
    subst hph0
    obtain ⟨hm, h1, h2, h3⟩ := phraseGramWF_parts (hall ph0 hmem0)
    refine phraseParsedWF_build ?_ h1 (by simpa using h2) ?_ ?_ ?_
    · intro hnil
      rw [List.map_eq_nil_iff] at hnil
      exact hm hnil
    · rw [morasWF_canon]
      exact h3
    · rw [List.all_eq_true]
      intro m hmmem
      rw [List.mem_map] at hmmem
      obtain ⟨m0, -, rfl⟩ := hmmem
      exact moraNumNone_canon m0
    · cases hp : ph0.pause_mora with
      | none => left; rfl
      | some x => right; rfl
  have hlastc : (canonList ps).getLast?.map AccentPhrase.pause_mora = some none := by
    rw [canonList, List.getLast?_map]
    cases hgl : ps.getLast? with
    | none => rw [hgl] at hlast; simp at hlast
    | some last =>
      rw [hgl] at hlast
      simp only [Option.map_some', Option.some.injEq] at hlast
      simp [canonPhrase, hlast]
  have h1 : (canonList ps).all phraseParsedWF = true := List.all_eq_true.mpr hallc
  have h2 : decide ((canonList ps).getLast?.map AccentPhrase.pause_mora = some none)
      = true := decide_eq_true hlastc
  unfold parsedOK
  rw [hie, h1, h2]
  rfl

theorem graMora_canon (m : Mora) : graMora (canonMora m) = graMora m := rfl

theorem graList_canon (ps : List AccentPhrase) : graList (canonList ps) = graList ps := by
  simp only [graList, canonList, List.map_map]
  apply List.map_congr_left
  intro ph hmem
  simp [Function.comp, graPhrase, canonPhrase, List.map_map]
  intro a ha
  rfl

/-! ## The HTTP layer of `run.py`

The handlers below are embedded from `run.py`.  A raised Python exception is
modelled as the error of an `Except`: FastAPI `HTTPException`s carry their
status code and detail, and the `KeyError` a missing dictionary key would
raise is its own variant.  The synthesis engine, the preset loader and the
wave-connecting helper are external collaborators, modelled as function
parameters. -/

/-- The errors of the kana parser as exposed to HTTP clients
(`ParseKanaBadRequest` of `model.py`, modelled from the spec's failure
shape: message, error name, position). -/
structure ParseKanaBadRequest where
  text : String
  error_name : ParseKanaErrorCode
  position : Nat
deriving DecidableEq

/-- Build the client-facing error body from a structured parse error. -/
def ParseKanaBadRequest.ofError (e : ParseKanaError) : ParseKanaBadRequest :=
  ⟨errorMessage e.errorName, e.errorName, e.position⟩

/-- The detail payload of an `HTTPException`: a plain string or a
`ParseKanaBadRequest` body. -/
inductive ExceptionDetail where
  | str (s : String)
  | parseKana (b : ParseKanaBadRequest)
deriving DecidableEq

/-- A FastAPI `HTTPException`: status code and detail. -/
structure HTTPException where
  status_code : Nat
  detail : ExceptionDetail
deriving DecidableEq

/-- A raised Python exception: an `HTTPException`, or the `KeyError` of a
missing dictionary key. -/
inductive PyError where
  | httpException (e : HTTPException)
  | keyError (key : String)
deriving DecidableEq

/-- The synthesis engine collaborator (`SynthesisEngineBase`): only the
members the embedded handlers use. -/
structure SynthesisEngineBase where
  default_sampling_rate : Nat
  create_accent_phrases : String → Nat → List AccentPhrase
  replace_mora_data : List AccentPhrase → Nat → List AccentPhrase

/-- A preset (`preset.py`): only the fields `audio_query_from_preset`
reads. -/
structure Preset where
  id : Nat
  style_id : Nat
  speedScale : Rat
  pitchScale : Rat
  intonationScale : Rat
  volumeScale : Rat
  prePhonemeLength : Rat
  postPhonemeLength : Rat

/-- An `AudioQuery` (`model.py`): the query object returned to clients. -/
structure AudioQuery where
  accent_phrases : List AccentPhrase
  speedScale : Rat
  pitchScale : Rat
  intonationScale : Rat
  volumeScale : Rat
  prePhonemeLength : Rat
  postPhonemeLength : Rat
  outputSamplingRate : Nat
  outputStereo : Bool
  kana : String
deriving DecidableEq

/-- Association-list lookup, modelling Python dictionary membership test
and indexing. -/
def alookup {κ ν : Type} [DecidableEq κ] (k : κ) : List (κ × ν) → Option ν
  | [] => none
  | (k0, v0) :: l => if k0 = k then some v0 else alookup k l

/-- The state `generate_app` closes over: the engine dictionary, the latest
core version, and the preset loader's result (`load_presets` returns either
presets or an error detail). -/
structure AppState where
  synthesis_engines : List (String × SynthesisEngineBase)
  latest_core_version : String
  load_presets : Except String (List Preset)

/-- `run.py` line 71: the default sampling rate is read from the engine of
the latest core version at startup (a running app therefore has that
version in its dictionary; `getD` supplies a dummy for the impossible
branch). -/
def default_sampling_rate (app : AppState) : Nat :=
  ((alookup app.latest_core_version app.synthesis_engines).map
    (·.default_sampling_rate)).getD 0

/-- `run.py` lines 106-111 (`get_engine`): `None` selects the latest core
version (a missing key would be a `KeyError`); a known version selects its
engine; any other value raises `HTTPException(422)`. -/
def get_engine (app : AppState) (core_version : Option String) :
    Except PyError SynthesisEngineBase :=
  match core_version with
  | none =>
    match alookup app.latest_core_version app.synthesis_engines with
    | some e => .ok e
    | none => .error (.keyError app.latest_core_version)
  | some v =>
    match alookup v app.synthesis_engines with
    | some e => .ok e
    | none => .error (.httpException ⟨422, .str "不明なバージョンです"⟩)

/-- `run.py` lines 189-219 (`accent_phrases` handler): with `is_kana` true
the text is parsed as kana notation; a `ParseKanaError` becomes an
`HTTPException(400)` whose detail is the `ParseKanaBadRequest` built from
it, and a successful parse is passed to `replace_mora_data`.  With
`is_kana` false the engine's own analysis is used. -/
def accent_phrases (app : AppState) (text : String) (speaker : Nat) (is_kana : Bool)
    (core_version : Option String) : Except PyError (List AccentPhrase) :=
  match get_engine app core_version with
  | .error e => .error e
  | .ok engine =>
    if is_kana then
      match parse_kana text with
      | .error err =>
        .error (.httpException ⟨400, .parseKana (ParseKanaBadRequest.ofError err)⟩)
      | .ok aps => .ok (engine.replace_mora_data aps speaker)
    else
      .ok (engine.create_accent_phrases text speaker)

/-- `run.py` lines 119-136 (`audio_query` handler). -/
def audio_query (app : AppState) (text : String) (speaker : Nat)
    (core_version : Option String) : Except PyError AudioQuery :=
  match get_engine app core_version with
  | .error e => .error e
  | .ok engine =>
    let aps := engine.create_accent_phrases text speaker
    .ok ⟨aps, 1, 0, 1, 1, 1/10, 1/10, default_sampling_rate app, false, create_kana aps⟩

/-- `run.py` lines 144-175 (`audio_query_from_preset` handler): presets are
loaded, the first preset with the requested id is used (422 when loading
fails or no preset matches). -/
def audio_query_from_preset (app : AppState) (text : String) (preset_id : Nat)
    (core_version : Option String) : Except PyError AudioQuery :=
  match get_engine app core_version with
  | .error e => .error e
  | .ok engine =>
    match app.load_presets with
    | .error err_detail => .error (.httpException ⟨422, .str err_detail⟩)
    | .ok presets =>
      match presets.find? (fun p => decide (p.id = preset_id)) with
      | none => .error (.httpException ⟨422, .str "該当するプリセットIDが見つかりません"⟩)
      | some preset =>
        let aps := engine.create_accent_phrases text preset.style_id
        .ok ⟨aps, preset.speedScale, preset.pitchScale, preset.intonationScale,
          preset.volumeScale, preset.prePhonemeLength, preset.postPhonemeLength,
          default_sampling_rate app, false, create_kana aps⟩

/-! ## The morphing-parameter cache (`run.py` lines 91-94, 469-504)

`generate_app` wraps the imported `_synthesis_morphing_parameter` with
`functools.lru_cache(maxsize=4)` at the HTTP-app layer; the wrapped
function is keyed by its call arguments.  The cache is modelled
explicitly: an association list in most-recently-used-first order. -/

/-- The key of a cached morphing-parameter computation: the call arguments
of `synthesis_morphing_parameter` in `_synthesis_morphing` (engine
identity, query, base and target speaker). -/
structure MorphKey where
  engine_id : Nat
  query : AudioQuery
  base_speaker : Nat
  target_speaker : Nat
deriving DecidableEq

/-- Remove the entry with the given key, if present. -/
def aerase {κ ν : Type} [DecidableEq κ] (k : κ) : List (κ × ν) → List (κ × ν)
  | [] => []
  | (k0, v0) :: l => if k0 = k then l else (k0, v0) :: aerase k l

/-- One call through an LRU cache of the given capacity: a hit returns the
stored value and moves its entry to the front; a miss computes, stores at
the front, and drops beyond-capacity entries from the least-recently-used
end. -/
def lruCall {κ ν : Type} [DecidableEq κ] (f : κ → ν) (maxsize : Nat)
    (entries : List (κ × ν)) (k : κ) : ν × List (κ × ν) :=
  match alookup k entries with
  | some v => (v, (k, v) :: aerase k entries)
  | none =>
    let v := f k
    (v, ((k, v) :: entries).take maxsize)

/-- `run.py` line 94: the cached morphing-parameter function installed by
`generate_app`, an LRU cache of capacity 4 over the underlying
`_synthesis_morphing_parameter` (abstract here), keyed by the call
arguments. -/
def synthesis_morphing_parameter {ν : Type} (f : MorphKey → ν)
    (entries : List (MorphKey × ν)) (k : MorphKey) : ν × List (MorphKey × ν) :=
  lruCall f 4 entries k

/-- The cache state after a sequence of `/synthesis_morphing` requests,
starting from the empty cache (most recent request first in the list). -/
def runMorphCalls {ν : Type} (f : MorphKey → ν) : List MorphKey → List (MorphKey × ν)
  | [] => []
  | k :: ks => (synthesis_morphing_parameter f (runMorphCalls f ks) k).2

/-! ## `cancellable_synthesis` (`run.py` lines 386-406)

This endpoint takes `core_version` but does not dispatch through
`get_engine`: it first checks the feature flag (404 when disabled), then
forwards `core_version` into `cancellable_engine._synthesis_impl`, and
raises its 422 only after that call signals an unknown version by
returning an empty file name. -/

/-- The value the `cancellable_synthesis` handler returns on success: a
`FileResponse` for the synthesized file. -/
inductive CancellableSynthesisResponse where
  | fileResponse (fileName : String) (mediaType : String)
deriving DecidableEq

/-- The `cancellable_synthesis` handler, parameterized by the feature flag
`args.enable_cancellable_synthesis` and by the external
`cancellable_engine._synthesis_impl` (taking query, speaker id, request and
core version, returning the synthesized file name, empty on an unknown
version).  The second component records the `_synthesis_impl` invocations
made. -/
def cancellable_synthesis (enable_cancellable_synthesis : Bool)
    (synthesis_impl : AudioQuery → Nat → Nat → Option String → String)
    (query : AudioQuery) (speaker : Nat) (request : Nat)
    (core_version : Option String) :
    Except PyError CancellableSynthesisResponse
      × List (AudioQuery × Nat × Nat × Option String) :=
  if enable_cancellable_synthesis then
    let f_name := synthesis_impl query speaker request core_version
    if f_name = "" then
      (.error (.httpException ⟨422, .str "不明なバージョンです"⟩),
       [(query, speaker, request, core_version)])
    else
      (.ok (.fileResponse f_name "audio/wav"),
       [(query, speaker, request, core_version)])
  else
    (.error (.httpException ⟨404,
       .str "実験的機能はデフォルトで無効になっています。使用するには引数を指定してください。"⟩), [])

/-! ## `connect_waves` (`run.py` lines 603-620)

On a `ConnectBase64WavesException` the handler builds an
`HTTPException(422)` and `return`s it as the response value (it does not
raise it), writing no file; on success it writes one WAV file and returns
a `FileResponse` for it. -/

/-- The value the `connect_waves` handler returns: either the constructed
`HTTPException` object itself, or a `FileResponse` of the written WAV. -/
inductive ConnectWavesResponse where
  | httpException (e : HTTPException)
  | fileResponse (data : List Rat) (samplerate : Nat)
deriving DecidableEq

/-- The handler, parameterized by the external `connect_base64_waves`
(which either fails with an exception message or yields samples and a
rate).  The second component records the WAV files written. -/
def connect_waves
    (connect_base64_waves : List String → Except String (List Rat × Nat))
    (waves : List String) : ConnectWavesResponse × List (List Rat × Nat) :=
  match connect_base64_waves waves with
  | .error err => (.httpException ⟨422, .str err⟩, [])
  | .ok (arr, sr) => (.fileResponse arr sr, [(arr, sr)])

/-! ## Properties of the LRU cache -/

theorem alookup_mem {κ ν : Type} [DecidableEq κ] {k : κ} {l : List (κ × ν)} {v : ν}
    (h : alookup k l = some v) : (k, v) ∈ l := by
  induction l with
  | nil => simp [alookup] at h
  | cons p t ih =>
    obtain ⟨k0, v0⟩ := p
    by_cases hk : k0 = k
    · subst hk
      rw [alookup, if_pos rfl] at h
      injection h with h
      subst h
      exact List.mem_cons_self _ _
    · rw [alookup, if_neg hk] at h
      exact List.mem_cons_of_mem _ (ih h)

theorem aerase_length {κ ν : Type} [DecidableEq κ] {k : κ} {l : List (κ × ν)} {v : ν}
    (h : alookup k l = some v) : (aerase k l).length + 1 = l.length := by
  induction l with
  | nil => simp [alookup] at h
  | cons p t ih =>
    obtain ⟨k0, v0⟩ := p
    by_cases hk : k0 = k
    · simp [aerase, hk]
    · rw [alookup, if_neg hk] at h
      simp [aerase, hk, ih h]

theorem aerase_mem {κ ν : Type} [DecidableEq κ] {k : κ} {l : List (κ × ν)}
    {x : κ × ν} (h : x ∈ aerase k l) : x ∈ l := by
  induction l with
  | nil => simp [aerase] at h
  | cons p t ih =>
    obtain ⟨k0, v0⟩ := p
    by_cases hk : k0 = k
    · rw [aerase, if_pos hk] at h
      exact List.mem_cons_of_mem _ h
    · rw [aerase, if_neg hk] at h
      rw [List.mem_cons] at h
      cases h with
      | inl h => subst h; exact List.mem_cons_self _ _
      | inr h => exact List.mem_cons_of_mem _ (ih h)

theorem lruCall_length {κ ν : Type} [DecidableEq κ] (f : κ → ν)
    (entries : List (κ × ν)) (k : κ) (hlen : entries.length ≤ 4) :
    ((lruCall f 4 entries k).2).length ≤ 4 := by
  unfold lruCall
  cases hl : alookup k entries with
  | some v =>
    simp only [List.length_cons]
    rw [aerase_length hl]
    exact hlen
  | none =>
    simp only [List.length_take]
    exact Nat.min_le_left _ _

theorem lruCall_sound {κ ν : Type} [DecidableEq κ] (f : κ → ν)
    {entries : List (κ × ν)} (k : κ) (hs : ∀ kv ∈ entries, kv.2 = f kv.1) :
    (lruCall f 4 entries k).1 = f k ∧
      ∀ kv ∈ (lruCall f 4 entries k).2, kv.2 = f kv.1 := by
  unfold lruCall
  cases hl : alookup k entries with
  | some v =>
    have hv : v = f k := hs (k, v) (alookup_mem hl)
    refine ⟨hv, ?_⟩
    intro kv hmem
    rw [List.mem_cons] at hmem
    cases hmem with
    | inl h => subst h; exact hv
    | inr h => exact hs kv (aerase_mem h)
  | none =>
    refine ⟨rfl, ?_⟩
    intro kv hmem
    have hmem2 := List.take_subset _ _ hmem
    rw [List.mem_cons] at hmem2
    cases hmem2 with
    | inl h => subst h; rfl
    | inr h => exact hs kv h

theorem runMorphCalls_inv {ν : Type} (f : MorphKey → ν) (ks : List MorphKey) :
    (runMorphCalls f ks).length ≤ 4 ∧
      ∀ kv ∈ runMorphCalls f ks, kv.2 = f kv.1 := by
  induction ks with
  | nil => exact ⟨by simp [runMorphCalls], by simp [runMorphCalls]⟩
  | cons k t ih =>
    exact ⟨lruCall_length f _ k ih.1, (lruCall_sound f k ih.2).2⟩


def dummyEngine : SynthesisEngineBase :=
  ⟨24000, fun _ _ => [], fun aps _ => aps⟩

def preset0 : Preset := ⟨7, 3, 1, 0, 1, 1, 1/10, 1/10⟩

def app0 : AppState := ⟨[("0.0.1", dummyEngine)], "0.0.1", .ok [preset0]⟩

def q0 : AudioQuery := ⟨[], 0, 0, 0, 0, 0, 0, 0, false, ""⟩

def mkey (b : Nat) : MorphKey := ⟨0, q0, b, 0⟩

/-- Claim C1 (counterexample): the reverse round trip fails as universally
stated: a one-phrase list with a valid accent index whose single mora
carries a vowel inconsistent with the phoneme table is not reconstructed
by parsing its serialization. -/
theorem C1_reverse_round_trip_counterexample :
    ¬((parse_kana (create_kana
        [⟨[⟨"カ", some "k", none, "i", none, none⟩], 1, none, false⟩])).map graList
      = .ok (graList [⟨[⟨"カ", some "k", none, "i", none, none⟩], 1, none, false⟩])) := by
  decide

/-- Claim C1 (amended): for every non-empty list of AccentPhrase whose
phrases have valid accent indices and table-consistent moras, and whose
last phrase carries no pause mora, `parse_kana (create_kana p)` succeeds
and equals `p` in all grammar-relevant fields (mora text, consonant and
vowel, accent index, pause-mora presence, interrogative flag); numeric
duration/pitch fields are excluded from the comparison. -/
theorem C1_reverse_round_trip (ps : List AccentPhrase) (h : grammarOK ps = true) :
    (parse_kana (create_kana ps)).map graList = .ok (graList ps) := by
  have hc := parse_create_round_trip (canonList_parsedOK h)
  have he : create_kana (canonList ps) = create_kana ps := by
    rw [create_kana, create_kana, createChars_canon]
  rw [he] at hc
  rw [hc]
  simp [Except.map, graList_canon]

/-- Claim C1 witness: a devoiced mora followed by a long-vowel mora, with
numeric fields populated, round-trips on the grammar-relevant fields. -/
theorem C1_reverse_round_trip_witness :
    grammarOK [⟨[⟨"ス", some "s", some 1, "U", none, some 2⟩,
        ⟨"ー", none, none, "u", none, none⟩], 1, none, false⟩] = true ∧
      (parse_kana (create_kana [⟨[⟨"ス", some "s", some 1, "U", none, some 2⟩,
        ⟨"ー", none, none, "u", none, none⟩], 1, none, false⟩])).map graList
        = .ok (graList [⟨[⟨"ス", some "s", some 1, "U", none, some 2⟩,
          ⟨"ー", none, none, "u", none, none⟩], 1, none, false⟩]) :=
  ⟨by decide, C1_reverse_round_trip _ (by decide)⟩

/-- Claim C2: forward round trip: whenever `parse_kana` succeeds on a
string, serializing the result with `create_kana` yields a string that
`parse_kana` accepts, and re-parsing gives a structurally equal list. -/
theorem C2_forward_round_trip (s : String) (r : List AccentPhrase)
    (h : parse_kana s = .ok r) : parse_kana (create_kana r) = .ok r :=
  parse_create_round_trip (parse_kana_parsedOK h)

/-- Claim C2 witness: the two-phrase pause example round-trips. -/
theorem C2_forward_round_trip_witness :
    parse_kana ⟨['ハ', ACCENT_SYMBOL, 'シ', PAUSE_DELIMITER, 'ハ', 'シ', ACCENT_SYMBOL]⟩
        = .ok [⟨[⟨"ハ", some "h", none, "a", none, none⟩,
            ⟨"シ", some "sh", none, "i", none, none⟩], 1, some silentMora, false⟩,
          ⟨[⟨"ハ", some "h", none, "a", none, none⟩,
            ⟨"シ", some "sh", none, "i", none, none⟩], 2, none, false⟩] ∧
      parse_kana (create_kana [⟨[⟨"ハ", some "h", none, "a", none, none⟩,
            ⟨"シ", some "sh", none, "i", none, none⟩], 1, some silentMora, false⟩,
          ⟨[⟨"ハ", some "h", none, "a", none, none⟩,
            ⟨"シ", some "sh", none, "i", none, none⟩], 2, none, false⟩])
        = .ok [⟨[⟨"ハ", some "h", none, "a", none, none⟩,
            ⟨"シ", some "sh", none, "i", none, none⟩], 1, some silentMora, false⟩,
          ⟨[⟨"ハ", some "h", none, "a", none, none⟩,
            ⟨"シ", some "sh", none, "i", none, none⟩], 2, none, false⟩] :=
  ⟨by decide, C2_forward_round_trip
    ⟨['ハ', ACCENT_SYMBOL, 'シ', PAUSE_DELIMITER, 'ハ', 'シ', ACCENT_SYMBOL]⟩ _
    (by decide)⟩

/-- Claim C3: accent invariant: every phrase of a successful parse has
exactly one accent position (the single `accent` field), and its 1-indexed
value satisfies `1 <= accent <= length moras`. -/
theorem C3_accent_invariant (s : String) (r : List AccentPhrase)
    (h : parse_kana s = .ok r) :
    ∀ ph ∈ r, 1 ≤ ph.accent ∧ ph.accent ≤ ph.moras.length := by
  intro ph hmem
  have hok := parse_kana_parsedOK h
  simp only [parsedOK, Bool.and_eq_true, List.all_eq_true] at hok
  obtain ⟨⟨-, hall⟩, -⟩ := hok
  obtain ⟨-, h1, h2, -, -, -⟩ := phraseParsedWF_parts (hall ph hmem)
  exact ⟨h1, h2⟩

/-- Claim C3 witness: the interrogative example parses with accent 5 of
5 moras. -/
theorem C3_accent_invariant_witness :
    1 ≤ (AccentPhrase.mk [⟨"コ", some "k", none, "o", none, none⟩,
        ⟨"ン", none, none, "N", none, none⟩, ⟨"ニ", some "n", none, "i", none, none⟩,
        ⟨"チ", some "ch", none, "i", none, none⟩,
        ⟨"ワ", some "w", none, "a", none, none⟩] 5 none true).accent ∧
      (AccentPhrase.mk [⟨"コ", some "k", none, "o", none, none⟩,
        ⟨"ン", none, none, "N", none, none⟩, ⟨"ニ", some "n", none, "i", none, none⟩,
        ⟨"チ", some "ch", none, "i", none, none⟩,
        ⟨"ワ", some "w", none, "a", none, none⟩] 5 none true).accent
      ≤ (AccentPhrase.mk [⟨"コ", some "k", none, "o", none, none⟩,
        ⟨"ン", none, none, "N", none, none⟩, ⟨"ニ", some "n", none, "i", none, none⟩,
        ⟨"チ", some "ch", none, "i", none, none⟩,
        ⟨"ワ", some "w", none, "a", none, none⟩] 5 none true).moras.length :=
  C3_accent_invariant
    ⟨['コ', 'ン', 'ニ', 'チ', 'ワ', ACCENT_SYMBOL, WIDE_INTERROGATION_MARK]⟩
    [⟨[⟨"コ", some "k", none, "o", none, none⟩, ⟨"ン", none, none, "N", none, none⟩,
      ⟨"ニ", some "n", none, "i", none, none⟩, ⟨"チ", some "ch", none, "i", none, none⟩,
      ⟨"ワ", some "w", none, "a", none, none⟩], 5, none, true⟩]
    (by decide) _ (by decide)

/-- Claim C4: pause placement: the pause moras of a successful parse are
determined position by position by the input's delimiters: a phrase closed
by the pause delimiter carries the synthesized silent mora (empty text,
silence vowel phoneme, no consonant), while one closed by the plain
delimiter or by end of input carries none. -/
theorem C4_pause_placement (s : String) (r : List AccentPhrase)
    (h : parse_kana s = .ok r) :
    r.map AccentPhrase.pause_mora = (delimsOf s.data).map pauseOfDelim ++ [none] :=
  parse_kana_pauses h

/-- Claim C4 witness: in the two-phrase pause example, the first phrase
carries the silent pause mora and the second carries none. -/
theorem C4_pause_placement_witness :
    ([⟨[⟨"ハ", some "h", none, "a", none, none⟩,
        ⟨"シ", some "sh", none, "i", none, none⟩], 1, some silentMora, false⟩,
      ⟨[⟨"ハ", some "h", none, "a", none, none⟩,
        ⟨"シ", some "sh", none, "i", none, none⟩], 2, none, false⟩]
      : List AccentPhrase).map AccentPhrase.pause_mora
    = (delimsOf (⟨['ハ', ACCENT_SYMBOL, 'シ', PAUSE_DELIMITER, 'ハ', 'シ', ACCENT_SYMBOL]⟩
        : String).data).map pauseOfDelim ++ [none] :=
  C4_pause_placement
    ⟨['ハ', ACCENT_SYMBOL, 'シ', PAUSE_DELIMITER, 'ハ', 'シ', ACCENT_SYMBOL]⟩
    [⟨[⟨"ハ", some "h", none, "a", none, none⟩,
        ⟨"シ", some "sh", none, "i", none, none⟩], 1, some silentMora, false⟩,
      ⟨[⟨"ハ", some "h", none, "a", none, none⟩,
        ⟨"シ", some "sh", none, "i", none, none⟩], 2, none, false⟩]
    (by decide)

/-- Claim C5: parsing the input with two accent marks in one phrase fails
with `MultipleAccentMarks` at offset 3, the 0-based character offset of
the second accent mark in the original input. -/
theorem C5_multiple_accent_marks_position :
    parse_kana ⟨['カ', ACCENT_SYMBOL, 'キ', ACCENT_SYMBOL, 'ク']⟩
      = .error ⟨.MultipleAccentMarks, 3⟩ := by
  decide


/-- Claim C6: in the `accent_phrases` handler with `is_kana` true (and the
engine obtained), a `ParseKanaError` from `parse_kana` is mapped to an
`HTTPException` of status 400 whose detail is the `ParseKanaBadRequest`
built from the error, and a successful parse is passed to the engine's
`replace_mora_data`. -/
theorem C6_accent_phrases_parse_error_mapping (app : AppState) (text : String)
    (speaker : Nat) (cv : Option String) (engine : SynthesisEngineBase)
    (hge : get_engine app cv = .ok engine) :
    accent_phrases app text speaker true cv
      = (match parse_kana text with
         | .error err =>
           .error (.httpException ⟨400, .parseKana (ParseKanaBadRequest.ofError err)⟩)
         | .ok aps => .ok (engine.replace_mora_data aps speaker)) := by
  unfold accent_phrases
  rw [hge]
  rfl

/-- Claim C6 witness: on the accent-less input the handler returns the 400
with the `MissingAccentMark` body. -/
theorem C6_accent_phrases_parse_error_mapping_witness :
    accent_phrases app0 ⟨['カ', 'キ', 'ク']⟩ 1 true none
      = .error (.httpException ⟨400, .parseKana
          ⟨errorMessage .MissingAccentMark, .MissingAccentMark, 0⟩⟩) :=
  (C6_accent_phrases_parse_error_mapping app0 ⟨['カ', 'キ', 'ク']⟩ 1 none dummyEngine
    rfl).trans (by decide)

/-- Claim C7: both query-construction handlers return an `AudioQuery`
whose `kana` field is exactly `create_kana` of the `accent_phrases` list
stored in that same query. -/
theorem C7_audio_query_kana_verbatim (app : AppState) (text : String) (speaker : Nat)
    (preset_id : Nat) (cv : Option String) :
    (∀ q, audio_query app text speaker cv = .ok q →
      q.kana = create_kana q.accent_phrases) ∧
    (∀ q, audio_query_from_preset app text preset_id cv = .ok q →
      q.kana = create_kana q.accent_phrases) := by
  constructor
  · intro q h
    unfold audio_query at h
    cases hge : get_engine app cv with
    | error e => rw [hge] at h; exact Except.noConfusion h
    | ok engine =>
      rw [hge] at h
      dsimp only at h
      injection h with h
      rw [← h]
  · intro q h
    unfold audio_query_from_preset at h
    cases hge : get_engine app cv with
    | error e => rw [hge] at h; exact Except.noConfusion h
    | ok engine =>
      rw [hge] at h
      dsimp only at h
      cases hlp : app.load_presets with
      | error d => rw [hlp] at h; exact Except.noConfusion h
      | ok presets =>
        rw [hlp] at h
        dsimp only at h
        cases hfind : presets.find? (fun p => decide (p.id = preset_id)) with
        | none => rw [hfind] at h; exact Except.noConfusion h
        | some preset =>
          rw [hfind] at h
          dsimp only at h
          injection h with h
          rw [← h]

/-- Claim C7 witness: concrete queries from both handlers carry their own
serialization as `kana`. -/
theorem C7_audio_query_kana_verbatim_witness :
    (audio_query app0 "" 1 none
        = .ok ⟨[], 1, 0, 1, 1, 1/10, 1/10, 24000, false, ""⟩ ∧
      (AudioQuery.mk [] 1 0 1 1 (1/10) (1/10) 24000 false "").kana
        = create_kana (AudioQuery.mk [] 1 0 1 1 (1/10) (1/10) 24000 false
            "").accent_phrases) ∧
    (audio_query_from_preset app0 "" 7 none
        = .ok ⟨[], 1, 0, 1, 1, 1/10, 1/10, 24000, false, ""⟩ ∧
      (AudioQuery.mk [] 1 0 1 1 (1/10) (1/10) 24000 false "").kana
        = create_kana (AudioQuery.mk [] 1 0 1 1 (1/10) (1/10) 24000 false
            "").accent_phrases) :=
  ⟨⟨rfl, (C7_audio_query_kana_verbatim app0 "" 1 7 none).1 _ rfl⟩,
   ⟨rfl, (C7_audio_query_kana_verbatim app0 "" 1 7 none).2 _ rfl⟩⟩

/-- Claim C8: the morphing-parameter memoization installed by
`generate_app` is an LRU cache of fixed capacity 4 keyed by the call
arguments: after any request sequence the cache holds at most 4 entries,
every cached value is the underlying function's value at its key, and a
call returns the underlying function's value at its key. -/
theorem C8_morphing_cache_bounded (ν : Type) (f : MorphKey → ν)
    (ks : List MorphKey) :
    (runMorphCalls f ks).length ≤ 4 ∧
      (∀ kv ∈ runMorphCalls f ks, kv.2 = f kv.1) ∧
      ∀ (entries : List (MorphKey × ν)) (k : MorphKey),
        (∀ kv ∈ entries, kv.2 = f kv.1) →
        (synthesis_morphing_parameter f entries k).1 = f k :=
  ⟨(runMorphCalls_inv f ks).1, (runMorphCalls_inv f ks).2,
   fun entries k hs => (lruCall_sound f k hs).1⟩

/-- Claim C8 witness: five distinct requests leave at most 4 cache
entries, and a call against the empty cache computes the underlying
function at its key. -/
theorem C8_morphing_cache_bounded_witness :
    (runMorphCalls (fun k => k.base_speaker)
        [mkey 1, mkey 2, mkey 3, mkey 4, mkey 5]).length ≤ 4 ∧
      (synthesis_morphing_parameter (fun k => k.base_speaker) [] (mkey 1)).1
        = (fun (k : MorphKey) => k.base_speaker) (mkey 1) :=
  ⟨(C8_morphing_cache_bounded Nat (fun k => k.base_speaker)
      [mkey 1, mkey 2, mkey 3, mkey 4, mkey 5]).1,
   (C8_morphing_cache_bounded Nat (fun k => k.base_speaker) []).2.2 [] (mkey 1)
     (by simp)⟩

/-- Claim C9 (counterexample): not every endpoint taking `core_version`
rejects an unknown version with 422 before any other work.  The
`cancellable_synthesis` endpoint, at a concrete unknown version: with the
feature flag disabled it answers 404, not the 422; with the flag enabled
it does raise the 422, but only after invoking the cancellable engine
(the invocation trace already holds that call). -/
theorem C9_get_engine_dispatch_counterexample :
    ¬((cancellable_synthesis false (fun _ _ _ _ => "") q0 1 0 (some "9.9.9")).1
        = .error (.httpException ⟨422, .str "不明なバージョンです"⟩)) ∧
      (cancellable_synthesis false (fun _ _ _ _ => "") q0 1 0 (some "9.9.9")).1
        = .error (.httpException ⟨404,
            .str "実験的機能はデフォルトで無効になっています。使用するには引数を指定してください。"⟩) ∧
      (cancellable_synthesis true (fun _ _ _ _ => "") q0 1 0 (some "9.9.9")).1
        = .error (.httpException ⟨422, .str "不明なバージョンです"⟩) ∧
      ¬((cancellable_synthesis true (fun _ _ _ _ => "") q0 1 0 (some "9.9.9")).2
        = []) := by
  decide

/-- Claim C9 (amended): `get_engine` dispatch: `None` yields the
latest-version engine, a known version yields its engine, and any other
version raises `HTTPException(422)`.  The handlers that obtain their
engine through `get_engine` (`accent_phrases`, `audio_query`,
`audio_query_from_preset`) reject an unknown version with that 422 before
any other work.  The `cancellable_synthesis` endpoint does not: with the
feature flag disabled it raises 404 without any version check or engine
invocation, and with the flag enabled it raises its 422 only after the
cancellable engine was invoked and reported the unknown version by
returning an empty file name. -/
theorem C9_get_engine_dispatch (app : AppState) (v : String)
    (e : SynthesisEngineBase) (text : String) (speaker : Nat) (is_kana : Bool)
    (preset_id : Nat) (impl : AudioQuery → Nat → Nat → Option String → String)
    (query : AudioQuery) (request : Nat) :
    (alookup app.latest_core_version app.synthesis_engines = some e →
      get_engine app none = .ok e) ∧
    (alookup v app.synthesis_engines = some e → get_engine app (some v) = .ok e) ∧
    (alookup v app.synthesis_engines = none →
      get_engine app (some v)
        = .error (.httpException ⟨422, .str "不明なバージョンです"⟩)) ∧
    (alookup v app.synthesis_engines = none →
      accent_phrases app text speaker is_kana (some v)
          = .error (.httpException ⟨422, .str "不明なバージョンです"⟩) ∧
        audio_query app text speaker (some v)
          = .error (.httpException ⟨422, .str "不明なバージョンです"⟩) ∧
        audio_query_from_preset app text preset_id (some v)
          = .error (.httpException ⟨422, .str "不明なバージョンです"⟩)) ∧
    ((cancellable_synthesis false impl query speaker request (some v)).1
        = .error (.httpException ⟨404,
            .str "実験的機能はデフォルトで無効になっています。使用するには引数を指定してください。"⟩) ∧
      (cancellable_synthesis false impl query speaker request (some v)).2 = []) ∧
    (impl query speaker request (some v) = "" →
      (cancellable_synthesis true impl query speaker request (some v)).1
          = .error (.httpException ⟨422, .str "不明なバージョンです"⟩) ∧
        (cancellable_synthesis true impl query speaker request (some v)).2
          = [(query, speaker, request, some v)]) := by
  have hdisp : alookup v app.synthesis_engines = none →
      get_engine app (some v)
        = .error (.httpException ⟨422, .str "不明なバージョンです"⟩) := by
    intro h
    unfold get_engine
    dsimp only
    rw [h]
  refine ⟨?_, ?_, hdisp, ?_, ⟨rfl, rfl⟩, ?_⟩
  · intro h
    unfold get_engine
    dsimp only
    rw [h]
  · intro h
    unfold get_engine
    dsimp only
    rw [h]
  · intro h
    have hge := hdisp h
    refine ⟨?_, ?_, ?_⟩
    · unfold accent_phrases
      rw [hge]
    · unfold audio_query
      rw [hge]
    · unfold audio_query_from_preset
      rw [hge]
  · intro himpl
    have h1 : cancellable_synthesis true impl query speaker request (some v)
        = (.error (.httpException ⟨422, .str "不明なバージョンです"⟩),
           [(query, speaker, request, some v)]) := by
      unfold cancellable_synthesis
      rw [if_pos rfl]
      dsimp only
      rw [himpl]
      rw [if_pos rfl]
    exact ⟨by rw [h1], by rw [h1]⟩

/-- Claim C9 witness: the concrete app dispatches `None` to its engine and
rejects an unknown version with 422 in `get_engine` and in a handler;
`cancellable_synthesis` performs no engine invocation when disabled, and
raises its 422 after the engine invocation when enabled. -/
theorem C9_get_engine_dispatch_witness :
    get_engine app0 none = .ok dummyEngine ∧
      get_engine app0 (some "9.9.9")
        = .error (.httpException ⟨422, .str "不明なバージョンです"⟩) ∧
      accent_phrases app0 "" 1 false (some "9.9.9")
        = .error (.httpException ⟨422, .str "不明なバージョンです"⟩) ∧
      (cancellable_synthesis false (fun _ _ _ _ => "") q0 1 0 (some "9.9.9")).2 = [] ∧
      (cancellable_synthesis true (fun _ _ _ _ => "") q0 1 0 (some "9.9.9")).2
        = [(q0, 1, 0, some "9.9.9")] :=
  ⟨(C9_get_engine_dispatch app0 "9.9.9" dummyEngine "" 1 false 7
      (fun _ _ _ _ => "") q0 0).1 rfl,
   (C9_get_engine_dispatch app0 "9.9.9" dummyEngine "" 1 false 7
      (fun _ _ _ _ => "") q0 0).2.2.1 rfl,
   ((C9_get_engine_dispatch app0 "9.9.9" dummyEngine "" 1 false 7
      (fun _ _ _ _ => "") q0 0).2.2.2.1 rfl).1,
   (C9_get_engine_dispatch app0 "9.9.9" dummyEngine "" 1 false 7
      (fun _ _ _ _ => "") q0 0).2.2.2.2.1.2,
   ((C9_get_engine_dispatch app0 "9.9.9" dummyEngine "" 1 false 7
      (fun _ _ _ _ => "") q0 0).2.2.2.2.2 rfl).2⟩

/-- Claim C10: when `connect_base64_waves` fails, the `connect_waves`
handler returns the constructed `HTTPException(422)` as its response value
(rather than raising it) and writes no WAV file; when it succeeds, exactly
one WAV file is written and a `FileResponse` for it is returned. -/
theorem C10_connect_waves_error_path
    (cbw : List String → Except String (List Rat × Nat)) (waves : List String) :
    (∀ err, cbw waves = .error err →
      connect_waves cbw waves = (.httpException ⟨422, .str err⟩, [])) ∧
    (∀ arr sr, cbw waves = .ok (arr, sr) →
      connect_waves cbw waves = (.fileResponse arr sr, [(arr, sr)])) := by
  constructor
  · intro err h
    unfold connect_waves
    rw [h]
  · intro arr sr h
    unfold connect_waves
    rw [h]

/-- Claim C10 witness: a failing and a succeeding connection behave as
stated. -/
theorem C10_connect_waves_error_path_witness :
    connect_waves (fun ws => if ws.isEmpty then .error "invalid wave"
        else .ok ([0], 24000)) []
      = (.httpException ⟨422, .str "invalid wave"⟩, []) ∧
    connect_waves (fun ws => if ws.isEmpty then .error "invalid wave"
        else .ok ([0], 24000)) ["x"]
      = (.fileResponse [0] 24000, [([0], 24000)]) :=
  ⟨(C10_connect_waves_error_path _ []).1 "invalid wave" rfl,
   (C10_connect_waves_error_path _ ["x"]).2 [0] 24000 rfl⟩

end Voicevox
